import Mathlib

/-!
Verification of the streaming render core of `copilot-scripts`.

The development shallowly embeds three components of the repository:

* the server-sent-events decoder `parseSSE` (source: the async generator that
  splits the byte stream on newlines, skips comment/event/blank lines,
  terminates on the `[DONE]` sentinel and JSON-parses `data:` payloads);
* the token highlighter `highlightCode` (the `try`/`catch` wrapper around the
  shiki tokenizer that falls back to the unhighlighted code on any failure);
* the fence-aware `StreamBuffer` state machine (the Effect-based
  implementation whose `write` drives `processNormalState`,
  `processCodeFenceOpeningState` and `processCodeBlockState`, and whose
  `flush` highlights a leftover `lineBuffer`).

Text is modelled as `List Char`.  External collaborators (the JSON parser,
the shiki tokenizer, the highlighter) are parameters of the embedded
functions, mirroring the way the source receives them.
-/

namespace Copilot

/-- Text, modelled as a list of characters. -/
abbrev Str := List Char

/-- Whitespace as recognised by `String.prototype.trim` (ASCII part). -/
def isWsChar (c : Char) : Bool :=
  c = ' ' || c = '\t' || c = '\n' || c = '\r' || c = '\x0b' || c = '\x0c'

/-- Left trim: drop leading whitespace. -/
def trimLeft (s : Str) : Str := s.dropWhile isWsChar

/-- Right trim: drop trailing whitespace (structural formulation). -/
def trimRight : Str → Str
  | [] => []
  | c :: s =>
    match trimRight s with
    | [] => if isWsChar c then [] else [c]
    | r => c :: r

/-- `trim`, as in `String.prototype.trim`: drop whitespace at both ends. -/
def trim (s : Str) : Str := trimRight (trimLeft s)

/-- `a.isPrefixOf b` as a Bool, spelled out for easy computation. -/
def startsWith : Str → Str → Bool
  | [], _ => true
  | _, [] => false
  | p :: ps, c :: cs => p = c && startsWith ps cs

/-- `buffer.split('\n')` followed by `buffer = lines.pop()`: the complete
(newline-terminated) lines, and the trailing partial line. -/
def linesSplit : Str → List Str × Str
  | [] => ([], [])
  | c :: rest =>
    let p := linesSplit rest
    if c = '\n' then ([] :: p.1, p.2)
    else
      match p with
      | (l :: ls, b) => ((c :: l) :: ls, b)
      | ([], b) => ([], c :: b)

/-- The line-processing loop of `parseSSE`: for each complete line, trim it;
skip blank lines, `:` comments and `event:` lines; for `data:` lines take the
payload `trimmed.slice(5).trim()`; the `[DONE]` sentinel terminates (second
component `true`); any other payload is JSON-parsed through the oracle `jp`
(a parse failure is skipped). -/
def processLines (jp : Str → Option α) : List Str → List α × Bool
  | [] => ([], false)
  | l :: ls =>
    let t := trim l
    if t = [] then processLines jp ls
    else if startsWith [':'] t then processLines jp ls
    else if startsWith ("event:".data) t then processLines jp ls
    else if startsWith ("data:".data) t then
      let d := trim (t.drop 5)
      if d = "[DONE]".data then ([], true)
      else
        match jp d with
        | some v =>
          let p := processLines jp ls
          (v :: p.1, p.2)
        | none => processLines jp ls
    else processLines jp ls

/-- The chunk loop of `parseSSE`: append each read chunk to the pending
buffer, split off the complete lines, keep the trailing partial line, process
the lines, and stop reading as soon as the sentinel was seen.  When the
source closes (`chunks` exhausted) the pending buffer is discarded. -/
def parseSSEgo (jp : Str → Option α) (buf : Str) : List Str → List α
  | [] => []
  | c :: cs =>
    let p := linesSplit (buf ++ c)
    let r := processLines jp p.1
    if r.2 then r.1 else r.1 ++ parseSSEgo jp p.2 cs

/-- `parseSSE`, embedded over the sequence of chunks delivered by the byte
source, parameterised by the JSON parser `jp`. -/
def parseSSE (jp : Str → Option α) (chunks : List Str) : List α :=
  parseSSEgo jp [] chunks

/-! ### Basic lemmas about the decoder's string plumbing -/

theorem trimLeft_cons_of_not_ws {c : Char} (s : Str) (h : isWsChar c = false) :
    trimLeft (c :: s) = c :: s := by
  simp [trimLeft, List.dropWhile, h]

theorem linesSplit_cons (c : Char) (rest : Str) :
    linesSplit (c :: rest) =
      if c = '\n' then ([] :: (linesSplit rest).1, (linesSplit rest).2)
      else
        match linesSplit rest with
        | (l :: ls, b) => ((c :: l) :: ls, b)
        | ([], b) => ([], c :: b) := rfl

theorem linesSplit_no_nl {s : Str} (h : '\n' ∉ s) : linesSplit s = ([], s) := by
  induction s with
  | nil => rfl
  | cons c rest ih =>
    have hc : c ≠ '\n' := fun hc => h (hc ▸ List.mem_cons_self c rest)
    have hr : '\n' ∉ rest := fun hr => h (List.mem_cons_of_mem c hr)
    rw [linesSplit_cons, if_neg hc, ih hr]

theorem linesSplit_append_nl {a : Str} (b : Str) (h : '\n' ∉ a) :
    linesSplit (a ++ '\n' :: b) = (a :: (linesSplit b).1, (linesSplit b).2) := by
  induction a with
  | nil =>
    rw [List.nil_append, linesSplit_cons, if_pos rfl]
  | cons c rest ih =>
    have hc : c ≠ '\n' := fun hc => h (hc ▸ List.mem_cons_self c rest)
    have hr : '\n' ∉ rest := fun hr => h (List.mem_cons_of_mem c hr)
    rw [List.cons_append, linesSplit_cons, if_neg hc, ih hr]

theorem linesSplit_lines_nil {s : Str} (h : (linesSplit s).1 = []) :
    (linesSplit s).2 = s := by
  induction s with
  | nil => rfl
  | cons c rest ih =>
    by_cases hc : c = '\n'
    · subst hc
      rw [linesSplit_cons, if_pos rfl] at h
      simp at h
    · rw [linesSplit_cons, if_neg hc] at h ⊢
      cases hsplit : linesSplit rest with
      | mk ls buf =>
        rw [hsplit] at ih
        rw [hsplit] at h
        cases ls with
        | nil =>
          have hb : buf = rest := ih rfl
          simp [hb]
        | cons l ls' => exact absurd h (List.cons_ne_nil _ _)

theorem linesSplit_append_of_closed {a : Str} (b : Str)
    (h : (linesSplit a).2 = []) :
    linesSplit (a ++ b) =
      ((linesSplit a).1 ++ (linesSplit b).1, (linesSplit b).2) := by
  induction a with
  | nil => simp [linesSplit]
  | cons c rest ih =>
    by_cases hc : c = '\n'
    · subst hc
      rw [linesSplit_cons, if_pos rfl] at h
      simp only at h
      rw [List.cons_append, linesSplit_cons, if_pos rfl, ih h,
        linesSplit_cons, if_pos rfl]
      simp
    · rw [linesSplit_cons, if_neg hc] at h
      cases hsplit : linesSplit rest with
      | mk ls buf =>
        rw [hsplit] at h
        cases ls with
        | nil => simp at h
        | cons l ls' =>
          simp only at h
          subst h
          have hres := ih (by rw [hsplit])
          rw [hsplit] at hres
          rw [List.cons_append, linesSplit_cons, if_neg hc, hres,
            linesSplit_cons, if_neg hc, hsplit]
          simp

theorem linesSplit_buf_no_nl (s : Str) : '\n' ∉ (linesSplit s).2 := by
  induction s with
  | nil => simp [linesSplit]
  | cons c rest ih =>
    by_cases hc : c = '\n'
    · subst hc
      rw [linesSplit_cons, if_pos rfl]
      exact ih
    · rw [linesSplit_cons, if_neg hc]
      cases hsplit : linesSplit rest with
      | mk ls buf =>
        rw [hsplit] at ih
        cases ls with
        | nil =>
          intro hmem
          rcases List.mem_cons.mp hmem with h1 | h2
          · exact hc h1.symm
          · exact ih h2
        | cons l ls' => exact ih

theorem linesSplit_ends_nl {s : Str} (h : s.getLast? = some '\n') :
    (linesSplit s).2 = [] := by
  induction s with
  | nil => simp at h
  | cons c rest ih =>
    cases rest with
    | nil =>
      simp [List.getLast?] at h
      subst h
      rw [linesSplit_cons, if_pos rfl]
      simp [linesSplit]
    | cons d rest' =>
      rw [List.getLast?_cons_cons] at h
      have hrest := ih h
      by_cases hc : c = '\n'
      · subst hc
        rw [linesSplit_cons, if_pos rfl]
        exact hrest
      · rw [linesSplit_cons, if_neg hc]
        cases hsplit : linesSplit (d :: rest') with
        | mk ls buf =>
          rw [hsplit] at hrest
          simp only at hrest
          subst hrest
          cases ls with
          | nil =>
            exfalso
            have h2 : (linesSplit (d :: rest')).2 = d :: rest' :=
              linesSplit_lines_nil (by rw [hsplit])
            rw [hsplit] at h2
            simp at h2
          | cons l ls' => simp

/-! ### C7 / C8 / C10 support lemmas -/

theorem processLines_append (jp : Str → Option α) (A B : List Str) :
    processLines jp (A ++ B) =
      (if (processLines jp A).2 then processLines jp A
       else ((processLines jp A).1 ++ (processLines jp B).1,
             (processLines jp B).2)) := by
  induction A with
  | nil => simp [processLines]
  | cons l ls ih =>
    simp only [List.cons_append, processLines]
    by_cases h1 : trim l = []
    · simp [h1, ih]
    · by_cases h2 : startsWith [':'] (trim l)
      · simp [h1, h2, ih]
      · by_cases h3 : startsWith ("event:".data) (trim l)
        · simp [h1, h2, h3, ih]
        · by_cases h4 : startsWith ("data:".data) (trim l)
          · by_cases h5 : trim ((trim l).drop 5) = "[DONE]".data
            · simp [h1, h2, h3, h4, h5]
            · cases hjp : jp (trim ((trim l).drop 5)) with
              | none => simp [h1, h2, h3, h4, h5, hjp, ih]
              | some v =>
                by_cases hterm : (processLines jp ls).2
                · simp [h1, h2, h3, h4, h5, hjp, ih, hterm]
                · simp [h1, h2, h3, h4, h5, hjp, ih, hterm]
          · simp [h1, h2, h3, h4, ih]

theorem processLines_done (jp : Str → Option α) (ls : List Str) :
    processLines jp ("data: [DONE]".data :: ls) = ([], true) := rfl

/-- A `data:` line: the trimmed line still carries the `data:` marker, and
the payload handed to the parser is `trim bad`. -/
theorem trimRight_cons (c : Char) (s : Str) :
    trimRight (c :: s) =
      match trimRight s with
      | [] => if isWsChar c then [] else [c]
      | r => c :: r := rfl

theorem trimRight_append (a b : Str) :
    trimRight (a ++ b) =
      (if trimRight b = [] then trimRight a else a ++ trimRight b) := by
  induction a with
  | nil => by_cases h : trimRight b = [] <;> simp [h, trimRight]
  | cons c a' ih =>
    rw [List.cons_append, trimRight_cons, trimRight_cons, ih]
    by_cases h : trimRight b = []
    · rw [if_pos h, if_pos h]
    · rw [if_neg h, if_neg h, List.cons_append]
      cases ha' : a' ++ trimRight b with
      | nil =>
        simp only [List.append_eq_nil] at ha'
        exact absurd ha'.2 h
      | cons x xs => rfl

theorem trimRight_eq_nil_iff (s : Str) : trimRight s = [] ↔ s.all isWsChar := by
  induction s with
  | nil => simp [trimRight]
  | cons c s' ih =>
    rw [trimRight_cons, List.all_cons]
    cases h : trimRight s' with
    | nil =>
      have hs' : s'.all isWsChar := ih.mp h
      by_cases hc : isWsChar c <;> simp [hc, hs']
    | cons x xs =>
      have hs' : ¬ s'.all isWsChar = true := fun hh => by
        rw [← ih] at hh
        rw [h] at hh
        simp at hh
      simp [hs']

theorem trimLeft_eq_nil_iff (s : Str) : trimLeft s = [] ↔ s.all isWsChar := by
  induction s with
  | nil => simp [trimLeft]
  | cons c s' ih =>
    by_cases hc : isWsChar c
    · simp [trimLeft, List.dropWhile, hc, ih]
    · simp [trimLeft, List.dropWhile, hc]

theorem trimLeft_trimRight_comm (s : Str) :
    trimLeft (trimRight s) = trimRight (trimLeft s) := by
  induction s with
  | nil => rfl
  | cons c s' ih =>
    by_cases hc : isWsChar c
    · have hl : trimLeft (c :: s') = trimLeft s' := by
        simp [trimLeft, List.dropWhile, hc]
      rw [hl, ← ih, trimRight_cons]
      cases h : trimRight s' with
      | nil => simp [hc, trimLeft]
      | cons x xs => simp [trimLeft, List.dropWhile, hc]
    · have hl : trimLeft (c :: s') = c :: s' :=
        trimLeft_cons_of_not_ws s' (by simp [hc])
      rw [hl, trimRight_cons]
      cases h : trimRight s' with
      | nil => simp [hc, trimLeft, List.dropWhile]
      | cons x xs => simp [trimLeft, List.dropWhile, hc]

theorem trimRight_idem (s : Str) : trimRight (trimRight s) = trimRight s := by
  induction s with
  | nil => rfl
  | cons c s' ih =>
    cases h : trimRight s' with
    | nil =>
      have e1 : trimRight (c :: s') = if isWsChar c then [] else [c] := by
        rw [trimRight_cons, h]
      rw [e1]
      by_cases hc : isWsChar c
      · simp [hc, trimRight]
      · simp [hc, trimRight]
    | cons x xs =>
      have e1 : trimRight (c :: s') = c :: x :: xs := by
        rw [trimRight_cons, h]
      rw [h] at ih
      rw [e1, trimRight_cons, ih]

theorem trim_trimRight (s : Str) : trim (trimRight s) = trim s := by
  unfold trim
  rw [trimLeft_trimRight_comm, trimRight_idem]

/-! ### Decoder step lemmas -/

theorem parseSSEgo_cons {α : Type} (jp : Str → Option α) (buf c : Str)
    (cs : List Str) :
    parseSSEgo jp buf (c :: cs) =
      (if (processLines jp (linesSplit (buf ++ c)).1).2 then
        (processLines jp (linesSplit (buf ++ c)).1).1
      else
        (processLines jp (linesSplit (buf ++ c)).1).1 ++
          parseSSEgo jp (linesSplit (buf ++ c)).2 cs) := rfl

theorem startsWith_append_self (p r : Str) : startsWith p (p ++ r) = true := by
  induction p with
  | nil => simp [startsWith]
  | cons c ps ih => simp [startsWith, ih]

theorem trimLeft_data_line (bad : Str) :
    trimLeft ("data:".data ++ bad) = "data:".data ++ bad := by
  have e : ("data:".data : Str) ++ bad = 'd' :: ("ata:".data ++ bad) := rfl
  rw [e, trimLeft_cons_of_not_ws _ (by decide)]

theorem trim_data_line (bad : Str) :
    trim ("data:".data ++ bad) = "data:".data ++ trimRight bad := by
  unfold trim
  rw [trimLeft_data_line, trimRight_append]
  by_cases h : trimRight bad = []
  · rw [if_pos h, h, List.append_nil]
    decide
  · rw [if_neg h]

theorem processLines_cons_eval {α : Type} (jp : Str → Option α) (l : Str)
    (ls : List Str)
    (h1 : ¬ trim l = [])
    (h2 : ¬ startsWith [':'] (trim l) = true)
    (h3 : ¬ startsWith ("event:".data) (trim l) = true)
    (h4 : startsWith ("data:".data) (trim l) = true) :
    processLines jp (l :: ls) =
      (if trim ((trim l).drop 5) = "[DONE]".data then ([], true)
       else
         match jp (trim ((trim l).drop 5)) with
         | some v => (v :: (processLines jp ls).1, (processLines jp ls).2)
         | none => processLines jp ls) := by
  simp only [processLines]
  rw [if_neg h1, if_neg h2, if_neg h3, if_pos h4]
  rfl

/-- A malformed `data:` line is skipped by the line loop: it produces no
event and does not terminate the stream. -/
theorem processLines_data_skip {α : Type} (jp : Str → Option α) (bad : Str)
    (ls : List Str)
    (hnotdone : trim bad ≠ "[DONE]".data)
    (hjp : jp (trim bad) = none) :
    processLines jp (("data:".data ++ bad) :: ls) = processLines jp ls := by
  have ht := trim_data_line bad
  have e1 : trim ("data:".data ++ bad) = 'd' :: ("ata:".data ++ trimRight bad) := by
    rw [ht, show ("data:".data : Str) = 'd' :: "ata:".data by decide,
      List.cons_append]
  have hdrop : (trim ("data:".data ++ bad)).drop 5 = trimRight bad := by
    rw [ht]
    have hlen : ("data:".data : Str).length = 5 := rfl
    rw [← hlen]
    exact List.drop_left _ _
  have hpayload : trim ((trim ("data:".data ++ bad)).drop 5) = trim bad := by
    rw [hdrop, trim_trimRight]
  rw [processLines_cons_eval jp _ ls ?h1 ?h2 ?h3 ?h4]
  · rw [hpayload, if_neg hnotdone, hjp]
  case h1 => rw [e1]; simp
  case h2 => rw [e1]; simp [startsWith]
  case h3 =>
    rw [e1]
    have e2 : ("event:".data : Str) = 'e' :: "vent:".data := rfl
    rw [e2]
    simp [startsWith]
  case h4 => rw [ht]; exact startsWith_append_self _ _

/-! ### C7: the `[DONE]` sentinel ends the stream immediately -/

/-- C7: when a `data` line carrying the literal `[DONE]` payload is reached,
the event sequence ends right there: the sentinel yields no event, the
remaining bytes of the same chunk (`post`) are never decoded, and no further
chunk of the byte source (`cs`) is read.  The result is exactly what the
decoder produces from the part of the stream before the sentinel line. -/
theorem parseSSE_done_terminates {α : Type} (jp : Str → Option α)
    (pre post : Str) (cs : List Str)
    (hpre : pre = [] ∨ pre.getLast? = some '\n') :
    parseSSE jp ((pre ++ "data: [DONE]\n".data ++ post) :: cs) =
      parseSSE jp [pre] := by
  have hclosed : (linesSplit pre).2 = [] := by
    rcases hpre with h | h
    · subst h; rfl
    · exact linesSplit_ends_nl h
  have hsplit1 : linesSplit (pre ++ "data: [DONE]\n".data ++ post) =
      ((linesSplit pre).1 ++ ("data: [DONE]".data :: (linesSplit post).1),
        (linesSplit post).2) := by
    rw [List.append_assoc, linesSplit_append_of_closed _ hclosed]
    have e : ("data: [DONE]\n".data : Str) ++ post =
        "data: [DONE]".data ++ '\n' :: post := rfl
    rw [e, linesSplit_append_nl _ (by decide)]
  unfold parseSSE
  rw [parseSSEgo_cons, parseSSEgo_cons, List.nil_append, List.nil_append,
    hsplit1, hclosed, processLines_append, processLines_done]
  by_cases hterm : (processLines jp (linesSplit pre).1).2
  · simp [hterm]
  · simp [hterm, parseSSEgo]

def jpNum : Str → Option Nat := fun s =>
  if s = "1".data then some 1 else if s = "7".data then some 7 else none

theorem parseSSE_done_terminates_witness :
    ("data: 1\n".data = ([] : Str) ∨ ("data: 1\n".data : Str).getLast? = some '\n') ∧
    parseSSE jpNum (("data: 1\n".data ++ "data: [DONE]\n".data ++
      "data: 7\n".data) :: ["data: 7\n".data]) = [1] :=
  ⟨Or.inr (by decide),
    (parseSSE_done_terminates jpNum "data: 1\n".data "data: 7\n".data
      ["data: 7\n".data] (Or.inr (by decide))).trans (by decide)⟩

/-! ### C8: malformed events are skipped, never fatal -/

/-- C8: a `data:` line whose payload is neither the sentinel nor parseable
JSON (`jp` returns `none`) yields no event and does not end or abort the
sequence: the decoder's output is the same as if the malformed line were not
present at all. -/
theorem parseSSE_malformed_skipped {α : Type} (jp : Str → Option α)
    (pre bad post : Str) (cs : List Str)
    (hpre : pre = [] ∨ pre.getLast? = some '\n')
    (hbad : '\n' ∉ bad)
    (hnotdone : trim bad ≠ "[DONE]".data)
    (hjp : jp (trim bad) = none) :
    parseSSE jp ((pre ++ ("data:".data ++ bad) ++ '\n' :: post) :: cs) =
      parseSSE jp ((pre ++ post) :: cs) := by
  have hclosed : (linesSplit pre).2 = [] := by
    rcases hpre with h | h
    · subst h; rfl
    · exact linesSplit_ends_nl h
  have hdl : '\n' ∉ ("data:".data ++ bad) := by
    intro hm
    rcases List.mem_append.mp hm with h1 | h2
    · exact absurd h1 (by decide)
    · exact hbad h2
  have hsplitL : linesSplit (pre ++ ("data:".data ++ bad) ++ '\n' :: post) =
      ((linesSplit pre).1 ++ (("data:".data ++ bad) :: (linesSplit post).1),
        (linesSplit post).2) := by
    rw [List.append_assoc, linesSplit_append_of_closed _ hclosed,
      linesSplit_append_nl _ hdl]
  have hsplitR : linesSplit (pre ++ post) =
      ((linesSplit pre).1 ++ (linesSplit post).1, (linesSplit post).2) :=
    linesSplit_append_of_closed _ hclosed
  unfold parseSSE
  rw [parseSSEgo_cons, parseSSEgo_cons, List.nil_append, List.nil_append,
    hsplitL, hsplitR, processLines_append, processLines_append,
    processLines_data_skip jp bad _ hnotdone hjp]

theorem parseSSE_malformed_skipped_witness :
    ((trim " !!!".data : Str) ≠ "[DONE]".data) ∧
    parseSSE jpNum (("data: 1\n".data ++ ("data:".data ++ " !!!".data) ++
      '\n' :: "data: 7\n".data) :: []) = [1, 7] :=
  ⟨by decide,
    (parseSSE_malformed_skipped jpNum "data: 1\n".data " !!!".data
      "data: 7\n".data [] (Or.inr (by decide)) (by decide) (by decide)
      (by decide)).trans (by decide)⟩

/-! ### C10: a final unterminated line is discarded -/

/-- C10 (implicit): when the byte source closes while the pending buffer
holds a final line with no trailing newline, that line is silently discarded:
appending a newline-free final chunk to any stream changes nothing, even when
that chunk is a complete well-formed `data:` payload or the sentinel. -/
theorem parseSSE_partial_line_dropped {α : Type} (jp : Str → Option α)
    (cs : List Str) (s : Str) (h : '\n' ∉ s) :
    parseSSE jp (cs ++ [s]) = parseSSE jp cs := by
  unfold parseSSE
  have main : ∀ (cs' : List Str) (buf : Str), '\n' ∉ buf →
      parseSSEgo jp buf (cs' ++ [s]) = parseSSEgo jp buf cs' := by
    intro cs'
    induction cs' with
    | nil =>
      intro buf hbuf
      rw [List.nil_append, parseSSEgo_cons]
      have hsplit : linesSplit (buf ++ s) = ([], buf ++ s) :=
        linesSplit_no_nl (by
          intro hm
          rcases List.mem_append.mp hm with h1 | h2
          · exact hbuf h1
          · exact h h2)
      rw [hsplit]
      simp [processLines, parseSSEgo]
    | cons c cs'' ih =>
      intro buf hbuf
      rw [List.cons_append, parseSSEgo_cons, parseSSEgo_cons]
      by_cases hterm : (processLines jp (linesSplit (buf ++ c)).1).2
      · simp [hterm]
      · simp only [hterm, if_false, Bool.false_eq_true]
        rw [ih _ (linesSplit_buf_no_nl _)]
  exact main cs [] (by simp)

theorem parseSSE_partial_line_dropped_witness :
    ('\n' ∉ ("data: 7".data : Str)) ∧
    parseSSE jpNum (["data: 1\n".data] ++ ["data: 7".data]) = [1] :=
  ⟨by decide,
    (parseSSE_partial_line_dropped jpNum ["data: 1\n".data] "data: 7".data
      (by decide)).trans (by decide)⟩

/-! ### Token highlighter (`syntax-highlighter.ts`, `highlightCode`)

The shiki engine is external; it is modelled as an oracle
`tok : Str → Str → Except Unit (List (List Token))` which either fails
(anything thrown inside the `try` block: initialization failure, unknown or
unloaded language, tokenizer error) or returns the token lines.  `highlightCode`
itself is embedded faithfully: normalize the language through the alias
table, tokenize, wrap colored tokens in set/reset escape pairs, join lines
with newlines, and trim a trailing newline the tokenizer introduced. -/

/-- One shiki token: an optional hex color and its text content. -/
structure Token where
  color : Option Str
  content : Str

/-- `LANGUAGE_ALIASES` from `syntax-highlighter.ts`. -/
def LANGUAGE_ALIASES : List (Str × Str) :=
  [("js".data, "javascript".data), ("ts".data, "typescript".data),
   ("py".data, "python".data), ("rb".data, "ruby".data),
   ("sh".data, "bash".data), ("yml".data, "yaml".data),
   ("md".data, "markdown".data), ("rs".data, "rust".data),
   ("kt".data, "kotlin".data), ("cs".data, "csharp".data)]

/-- `normalizeLanguage`: lowercase, then apply the alias table (fall back to
the lowercased tag itself). -/
def normalizeLanguage (lang : Str) : Str :=
  let normalized := lang.map Char.toLower
  match LANGUAGE_ALIASES.lookup normalized with
  | some v => v
  | none => normalized

/-- The `langs` list passed to `getSingletonHighlighter` in
`syntax-highlighter.ts`: the languages the engine loads. -/
def loadedLangs : List Str :=
  ["javascript".data, "typescript".data, "python".data, "java".data,
   "c".data, "cpp".data, "csharp".data, "go".data, "rust".data,
   "ruby".data, "php".data, "swift".data, "kotlin".data, "scala".data,
   "r".data, "bash".data, "shell".data, "powershell".data, "sql".data,
   "html".data, "css".data, "json".data, "yaml".data, "xml".data,
   "markdown".data, "text".data]

/-- Value of one hex digit (JS `parseInt(_, 16)` on a valid digit). -/
def hexDigitVal (c : Char) : Nat :=
  if '0' ≤ c ∧ c ≤ '9' then c.toNat - 48
  else if 'a' ≤ c ∧ c ≤ 'f' then c.toNat - 87
  else if 'A' ≤ c ∧ c ≤ 'F' then c.toNat - 55
  else 0

/-- `colorToAnsi`: `#rrggbb` to a 24-bit ANSI foreground escape. -/
def colorToAnsi (hex : Str) : Str :=
  let byteAt := fun (i : Nat) =>
    hexDigitVal (hex.getD i '0') * 16 + hexDigitVal (hex.getD (i + 1) '0')
  '\x1b' :: "[38;2;".data ++ (Nat.repr (byteAt 1)).data ++ [';'] ++
    (Nat.repr (byteAt 3)).data ++ [';'] ++ (Nat.repr (byteAt 5)).data ++ ['m']

/-- The ANSI reset escape. -/
def ansiReset : Str := '\x1b' :: "[0m".data

/-- Render one token: colored tokens are wrapped in a set/reset pair, tokens
without a color pass through literally. -/
def renderToken (t : Token) : Str :=
  match t.color with
  | some c => colorToAnsi c ++ t.content ++ ansiReset
  | none => t.content

/-- Render the token lines: each line's tokens concatenated, a newline after
every line (the `result += "\n"` per line in the source). -/
def renderTokens (lines : List (List Token)) : Str :=
  match lines with
  | [] => []
  | line :: rest => (line.map renderToken).foldr (· ++ ·) [] ++ '\n' :: renderTokens rest

/-- `highlightCode` of `syntax-highlighter.ts`: normalize the language,
tokenize, render; a trailing newline not present in the input is trimmed;
any failure of the tokenizer oracle degrades to the unhighlighted code
(the `catch` branch). -/
def highlightCode (tokenize : Str → Str → Except Unit (List (List Token)))
    (code lang : Str) : Str :=
  match tokenize code (normalizeLanguage lang) with
  | Except.error _ => code
  | Except.ok lines =>
    let result := renderTokens lines
    if code.getLast? ≠ some '\n' ∧ result.getLast? = some '\n' then
      result.dropLast
    else result

/-! ### C9: the highlighter never fails outward -/

/-- C9: `highlightCode` is total (never throws), and degrades to returning
the input unchanged whenever the underlying tokenizer fails — in particular,
with any tokenizer that fails on languages outside the loaded set,
highlighting with the tag `zzz-not-a-language` returns the code unchanged. -/
theorem highlightCode_never_fails_outward
    (tokenize : Str → Str → Except Unit (List (List Token)))
    (code lang : Str) :
    (∀ e, tokenize code (normalizeLanguage lang) = Except.error e →
        highlightCode tokenize code lang = code) ∧
    ((∀ c l, l ∉ loadedLangs → tokenize c l = Except.error ()) →
        highlightCode tokenize code "zzz-not-a-language".data = code) := by
  constructor
  · intro e h
    unfold highlightCode
    rw [h]
  · intro htok
    unfold highlightCode
    rw [htok code _ (by decide)]

def errTok : Str → Str → Except Unit (List (List Token)) :=
  fun _ _ => Except.error ()

theorem highlightCode_never_fails_outward_witness :
    highlightCode errTok "const x = 1;".data "zzz-not-a-language".data =
      "const x = 1;".data :=
  (highlightCode_never_fails_outward errTok "const x = 1;".data
    "zzz-not-a-language".data).2 (fun _ _ _ => rfl)

/-! ### The fence-aware `StreamBuffer` state machine

Embedded from the Effect-based `StreamBuffer.create` (states `NORMAL`,
`CODE_FENCE_OPENING`, `CODE_BLOCK`; fields `state`, `lineBuffer`, `language`,
`pending`).  The highlighter is a parameter `hl : Str → Str → Str`
(code and language in, decorated line out), mirroring the injected
`SyntaxHighlighter`, with `Option.getOrElse(lang, "plaintext")` applied at
each call site. -/

/-- The three machine states. -/
inductive BState where
  | NORMAL
  | CODE_FENCE_OPENING
  | CODE_BLOCK
deriving DecidableEq, Repr

/-- `BufferState`: discriminant, in-progress code line, current language,
and not-yet-decidable input. -/
structure BufferState where
  state : BState
  lineBuffer : Str
  language : Option Str
  pending : Str
deriving DecidableEq, Repr

/-- The initial (and post-`flush`) state. -/
def initialState : BufferState := ⟨BState.NORMAL, [], none, []⟩

/-- JS `\w`: ASCII letters, digits and underscore. -/
def isWordChar (c : Char) : Bool :=
  ('a' ≤ c ∧ c ≤ 'z') || ('A' ≤ c ∧ c ≤ 'Z') || ('0' ≤ c ∧ c ≤ '9') || c = '_'

/-- `language := lang ? Option.some(lang) : Option.none()`. -/
def langOpt (w : Str) : Option Str := if w = [] then none else some w

/-- Split a string at its first newline: `(text before, text after)`;
`none` when it has no newline (`indexOf("\n") === -1`). -/
def splitAtNl : Str → Option (Str × Str)
  | [] => none
  | c :: rest =>
    if c = '\n' then some ([], rest)
    else
      match splitAtNl rest with
      | some (l, r) => some (c :: l, r)
      | none => none

/-- Does `/(^|\n)```(\w*)(\n)/` match here, i.e. does the text begin with a
complete fence line `` ``` `` + word run + newline?  Returns the language
word and the text after the fence line. -/
def fenceAt (p : Str) : Option (Str × Str) :=
  if startsWith "```".data p ∧
      ((p.drop 3).dropWhile isWordChar).head? = some '\n' then
    some ((p.drop 3).takeWhile isWordChar, ((p.drop 3).dropWhile isWordChar).tail)
  else none

/-- Scan for the `\n`-anchored alternative of the complete-fence regex:
leftmost `\n` followed by a complete fence line.  Returns the emitted prefix
(including that `\n`, matching `fenceIndex = index + 1`), the language word,
and the remaining text. -/
def goFence : Str → Option (Str × Str × Str)
  | [] => none
  | c :: rest =>
    if c = '\n' then
      match fenceAt rest with
      | some (w, r) => some (['\n'], w, r)
      | none =>
        match goFence rest with
        | some (b, w, r) => some (c :: b, w, r)
        | none => none
    else
      match goFence rest with
      | some (b, w, r) => some (c :: b, w, r)
      | none => none

/-- The complete-fence search `/(^|\n)```(\w*)(\n)/` (leftmost match: the
`^` alternative is position 0, then the `\n`-anchored scan). -/
def findFence (p : Str) : Option (Str × Str × Str) :=
  match fenceAt p with
  | some (w, r) => some ([], w, r)
  | none => goFence p

/-- Does `/^```\w*$/` hold: three backticks then word characters to the end? -/
def fenceToEnd (p : Str) : Bool :=
  startsWith "```".data p && (p.drop 3).all isWordChar

/-- Scan for the `\n`-anchored alternative of `/(^|\n)```\w*$/`: leftmost
`\n` followed by an incomplete fence running to the end of the text.
Returns the emitted prefix (including the `\n`) and the held-back text. -/
def goHeldFence : Str → Option (Str × Str)
  | [] => none
  | c :: rest =>
    if c = '\n' then
      if fenceToEnd rest then some (['\n'], rest)
      else
        match goHeldFence rest with
        | some (b, h) => some (c :: b, h)
        | none => none
    else
      match goHeldFence rest with
      | some (b, h) => some (c :: b, h)
      | none => none

/-- The incomplete-fence search `/(^|\n)```\w*$/`. -/
def findHeldFence (p : Str) : Option (Str × Str) :=
  if fenceToEnd p then some ([], p) else goHeldFence p

/-- The trailing-hold match `/(\n`{1,2}|^`{1,2})$/`: one or two backticks at
the very end, anchored either at a newline just before them or at the start
of the text.  Returns `(emitted prefix, held suffix)`. -/
def trailingHold (p : Str) : Option (Str × Str) :=
  if p = ['`'] ∨ p = ['`', '`'] then some ([], p)
  else if startsWith ['`', '\n'] p.reverse then
    some ((p.reverse.drop 2).reverse, ['\n', '`'])
  else if startsWith ['`', '`', '\n'] p.reverse then
    some ((p.reverse.drop 3).reverse, ['\n', '`', '`'])
  else none

/-- `if (fenceIndex > 0) onWrite(...)`: emit only a nonempty prefix. -/
def emitIfNonempty (s : Str) : List Str := if s = [] then [] else [s]

/-- `processNormalState`: complete fence found — emit the text before it and
enter `CODE_BLOCK`; incomplete fence at the end — emit the text before it,
hold it, enter `CODE_FENCE_OPENING`; one or two trailing backticks at a line
start — emit the text before them and hold them; otherwise emit everything.
The `Bool` is the step's `processed` flag. -/
def processNormalState (st : BufferState) : List Str × BufferState × Bool :=
  match findFence st.pending with
  | some (before, w, after) =>
    (emitIfNonempty before, ⟨BState.CODE_BLOCK, [], langOpt w, after⟩, true)
  | none =>
    match findHeldFence st.pending with
    | some (before, held) =>
      (emitIfNonempty before,
        ⟨BState.CODE_FENCE_OPENING, st.lineBuffer, st.language, held⟩, false)
    | none =>
      match trailingHold st.pending with
      | some (before, held) =>
        (emitIfNonempty before,
          ⟨BState.NORMAL, st.lineBuffer, st.language, held⟩, false)
      | none =>
        ([st.pending], ⟨BState.NORMAL, st.lineBuffer, st.language, []⟩, false)

/-- `processCodeFenceOpeningState`: wait for the newline completing the fence
line; then parse the language with `/^```(\w*)/` and enter `CODE_BLOCK`. -/
def processCodeFenceOpeningState (st : BufferState) :
    List Str × BufferState × Bool :=
  match splitAtNl st.pending with
  | none => ([], st, false)
  | some (fenceLine, rest) =>
    let lang :=
      if startsWith "```".data fenceLine then
        (fenceLine.drop 3).takeWhile isWordChar
      else []
    ([], ⟨BState.CODE_BLOCK, [], langOpt lang, rest⟩, true)

/-- The closing-fence test `/^```[ \t]*$/` on a complete line. -/
def isCloseFence (l : Str) : Bool :=
  startsWith "```".data l && (l.drop 3).all (fun c => c = ' ' || c = '\t')

/-- `processCodeBlockState`: without a newline, accumulate into `lineBuffer`;
with one, the completed line `lineBuffer ++ lineContent` either closes the
block (consumed silently) or is highlighted with the current language
(default `plaintext`) and emitted followed by a newline. -/
def processCodeBlockState (hl : Str → Str → Str) (st : BufferState) :
    List Str × BufferState × Bool :=
  match splitAtNl st.pending with
  | none =>
    ([], ⟨BState.CODE_BLOCK, st.lineBuffer ++ st.pending, st.language, []⟩,
      false)
  | some (lineContent, rest) =>
    let fullLine := st.lineBuffer ++ lineContent
    if isCloseFence fullLine then
      ([], ⟨BState.NORMAL, [], none, rest⟩, true)
    else
      ([hl fullLine (st.language.getD "plaintext".data) ++ ['\n']],
        ⟨BState.CODE_BLOCK, [], st.language, rest⟩, true)

/-- `processChunk`: dispatch on the current state. -/
def processChunk (hl : Str → Str → Str) (st : BufferState) :
    List Str × BufferState × Bool :=
  match st.state with
  | BState.NORMAL => processNormalState st
  | BState.CODE_FENCE_OPENING => processCodeFenceOpeningState st
  | BState.CODE_BLOCK => processCodeBlockState hl st

/-- The `while` loop of `write`: step while the pending input is nonempty
and the last step reported progress.  Fueled; every progressing step
strictly shortens `pending`, so `pending.length + 1` fuel is always enough
(see `writeLoop_fuel`). -/
def writeLoop (hl : Str → Str → Str) : Nat → BufferState → List Str × BufferState
  | 0, st => ([], st)
  | n + 1, st =>
    if st.pending = [] then ([], st)
    else
      let r := processChunk hl st
      if r.2.2 then
        let r2 := writeLoop hl n r.2.1
        (r.1 ++ r2.1, r2.2)
      else (r.1, r.2.1)

/-- `write(chunk)`: append the chunk to `pending`, then run the loop. -/
def write (hl : Str → Str → Str) (st : BufferState) (chunk : Str) :
    List Str × BufferState :=
  writeLoop hl (st.pending.length + chunk.length + 1)
    ⟨st.state, st.lineBuffer, st.language, st.pending ++ chunk⟩

/-- `flush()`: if still in a code block with a nonempty line buffer,
highlight and emit it; then emit any leftover pending text verbatim. -/
def flushOut (hl : Str → Str → Str) (st : BufferState) : List Str :=
  (if st.state = BState.CODE_BLOCK ∧ st.lineBuffer ≠ [] then
    [hl st.lineBuffer (st.language.getD "plaintext".data)]
  else []) ++
  (if st.pending = [] then [] else [st.pending])

/-- Run a sequence of `write` calls, collecting all emitted strings. -/
def runWrites (hl : Str → Str → Str) :
    BufferState → List Str → List Str × BufferState
  | st, [] => ([], st)
  | st, c :: cs =>
    let r := write hl st c
    let r2 := runWrites hl r.2 cs
    (r.1 ++ r2.1, r2.2)

/-- All strings passed to the output sink by `write*` then one `flush`. -/
def totalPieces (hl : Str → Str → Str) (chunks : List Str) : List Str :=
  (runWrites hl initialState chunks).1 ++
    flushOut hl (runWrites hl initialState chunks).2

/-- Concatenation of everything emitted, in emission order. -/
def totalOut (hl : Str → Str → Str) (chunks : List Str) : Str :=
  (totalPieces hl chunks).foldr (· ++ ·) []

/-! ### Characterization of the scanning functions -/

theorem splitAtNl_eq_some {p l r : Str} (h : splitAtNl p = some (l, r)) :
    p = l ++ '\n' :: r ∧ '\n' ∉ l := by
  induction p generalizing l with
  | nil => simp [splitAtNl] at h
  | cons c rest ih =>
    by_cases hc : c = '\n'
    · subst hc
      simp [splitAtNl] at h
      simp [h.1, h.2]
    · simp only [splitAtNl, hc, if_false] at h
      cases hs : splitAtNl rest with
      | none => rw [hs] at h; simp at h
      | some lr =>
        rw [hs] at h
        cases lr with
        | mk l' r' =>
          simp only [Option.some_inj] at h
          have hl : l = c :: l' := by
            have := congrArg Prod.fst h.symm
            simpa using this
          have hr : r = r' := by
            have := congrArg Prod.snd h.symm
            simpa using this
          subst hl; subst hr
          have := ih hs
          refine ⟨by rw [List.cons_append, this.1], ?_⟩
          intro hm
          rcases List.mem_cons.mp hm with h1 | h2
          · exact hc h1.symm
          · exact this.2 h2

theorem splitAtNl_of_no_nl {p : Str} (h : '\n' ∉ p) : splitAtNl p = none := by
  induction p with
  | nil => rfl
  | cons c rest ih =>
    have hc : c ≠ '\n' := fun hc => h (hc ▸ List.mem_cons_self c rest)
    have hr : '\n' ∉ rest := fun hr => h (List.mem_cons_of_mem c hr)
    simp [splitAtNl, hc, ih hr]

theorem splitAtNl_append {l : Str} (r : Str) (h : '\n' ∉ l) :
    splitAtNl (l ++ '\n' :: r) = some (l, r) := by
  induction l with
  | nil => simp [splitAtNl]
  | cons c rest ih =>
    have hc : c ≠ '\n' := fun hc => h (hc ▸ List.mem_cons_self c rest)
    have hr : '\n' ∉ rest := fun hr => h (List.mem_cons_of_mem c hr)
    rw [List.cons_append]
    simp [splitAtNl, hc, ih hr]

theorem startsWith_iff {pre s : Str} :
    startsWith pre s = true ↔ ∃ t, s = pre ++ t := by
  induction pre generalizing s with
  | nil => simp [startsWith]
  | cons p ps ih =>
    cases s with
    | nil => simp [startsWith]
    | cons c cs =>
      simp only [startsWith, Bool.and_eq_true, decide_eq_true_eq, ih,
        List.cons_append, List.cons.injEq]
      constructor
      · rintro ⟨h1, t, h2⟩
        exact ⟨t, h1.symm, h2⟩
      · rintro ⟨t, h1, h2⟩
        exact ⟨h1.symm, t, h2⟩

theorem all_takeWhile_self (P : Char → Bool) (l : Str) :
    (l.takeWhile P).all P = true := by
  induction l with
  | nil => simp [List.takeWhile]
  | cons c cs ih =>
    by_cases hc : P c
    · simp [List.takeWhile, hc, ih]
    · simp [List.takeWhile, hc]

theorem takeWhile_append_all {P : Char → Bool} {L : Str} {x : Char} (r : Str)
    (hL : L.all P = true) (hx : P x = false) :
    ((L ++ x :: r).takeWhile P) = L := by
  induction L with
  | nil => simp [List.takeWhile, hx]
  | cons c cs ih =>
    simp only [List.all_cons, Bool.and_eq_true] at hL
    rw [List.cons_append]
    simp [List.takeWhile, hL.1, ih hL.2]

theorem dropWhile_append_all {P : Char → Bool} {L : Str} {x : Char} (r : Str)
    (hL : L.all P = true) (hx : P x = false) :
    ((L ++ x :: r).dropWhile P) = x :: r := by
  induction L with
  | nil => simp [List.dropWhile, hx]
  | cons c cs ih =>
    simp only [List.all_cons, Bool.and_eq_true] at hL
    rw [List.cons_append]
    simp [List.dropWhile, hL.1, ih hL.2]

theorem fenceAt_eq_some {p w r : Str} (h : fenceAt p = some (w, r)) :
    p = '`' :: '`' :: '`' :: (w ++ '\n' :: r) ∧ w.all isWordChar = true := by
  unfold fenceAt at h
  split_ifs at h with hcond
  · obtain ⟨hsw, hhd⟩ := hcond
    obtain ⟨t, ht⟩ := startsWith_iff.mp hsw
    have hdrop : p.drop 3 = t := by
      rw [ht]
      have : ("```".data : Str).length = 3 := rfl
      rw [← this]
      exact List.drop_left _ _
    rw [hdrop] at h hhd
    simp only [Option.some_inj, Prod.mk.injEq] at h
    obtain ⟨hw, hr⟩ := h
    cases hdw : t.dropWhile isWordChar with
    | nil => rw [hdw] at hhd; simp at hhd
    | cons a as =>
      rw [hdw] at hhd hr
      simp only [List.head?] at hhd
      have ha : a = '\n' := by injection hhd
      subst ha
      simp only [List.tail] at hr
      constructor
      · rw [ht, ← hw, ← hr, ← hdw]
        have := List.takeWhile_append_dropWhile (p := isWordChar) (l := t)
        rw [this]
        rfl
      · rw [← hw]
        exact all_takeWhile_self _ _

theorem fenceAt_intro {w : Str} (r : Str) (hw : w.all isWordChar = true) :
    fenceAt ('`' :: '`' :: '`' :: (w ++ '\n' :: r)) = some (w, r) := by
  unfold fenceAt
  rw [show (('`' :: '`' :: '`' :: (w ++ '\n' :: r) : Str)).drop 3 =
    w ++ '\n' :: r from rfl]
  rw [takeWhile_append_all r hw (by decide), dropWhile_append_all r hw (by decide)]
  have hcond : startsWith "```".data ('`' :: '`' :: '`' :: (w ++ '\n' :: r)) = true := by
    have e : ("```".data : Str) = ['`', '`', '`'] := by decide
    exact startsWith_iff.mpr ⟨w ++ '\n' :: r, by rw [e]; simp⟩
  rw [if_pos ⟨hcond, rfl⟩]
  simp

theorem fenceToEnd_eq_true {p : Str} (h : fenceToEnd p = true) :
    ∃ w, p = '`' :: '`' :: '`' :: w ∧ w.all isWordChar = true := by
  unfold fenceToEnd at h
  simp only [Bool.and_eq_true] at h
  obtain ⟨t, ht⟩ := startsWith_iff.mp h.1
  have hdrop : p.drop 3 = t := by
    rw [ht]
    have : ("```".data : Str).length = 3 := rfl
    rw [← this]
    exact List.drop_left _ _
  refine ⟨t, by rw [ht]; rfl, ?_⟩
  rw [← hdrop]
  exact h.2

theorem goFence_eq_some {p b w r : Str} (h : goFence p = some (b, w, r)) :
    p = b ++ '`' :: '`' :: '`' :: (w ++ '\n' :: r) ∧ b ≠ [] := by
  induction p generalizing b with
  | nil => simp [goFence] at h
  | cons c rest ih =>
    simp only [goFence] at h
    by_cases hc : c = '\n'
    · rw [if_pos hc] at h
      cases hf : fenceAt rest with
      | some wr =>
        obtain ⟨w', r'⟩ := wr
        rw [hf] at h
        simp only [Option.some_inj, Prod.mk.injEq] at h
        obtain ⟨hb, hw, hr⟩ := h
        subst hb; subst hw; subst hr; subst hc
        refine ⟨?_, by simp⟩
        rw [(fenceAt_eq_some hf).1]
        rfl
      | none =>
        rw [hf] at h
        cases hg : goFence rest with
        | none => rw [hg] at h; simp at h
        | some bwr =>
          obtain ⟨b', w', r'⟩ := bwr
          rw [hg] at h
          simp only [Option.some_inj, Prod.mk.injEq] at h
          obtain ⟨hb, hw, hr⟩ := h
          subst hb; subst hw; subst hr
          obtain ⟨ihe, _⟩ := ih hg
          refine ⟨?_, by simp⟩
          rw [List.cons_append, ihe]
    · rw [if_neg hc] at h
      cases hg : goFence rest with
      | none => rw [hg] at h; simp at h
      | some bwr =>
        obtain ⟨b', w', r'⟩ := bwr
        rw [hg] at h
        simp only [Option.some_inj, Prod.mk.injEq] at h
        obtain ⟨hb, hw, hr⟩ := h
        subst hb; subst hw; subst hr
        obtain ⟨ihe, _⟩ := ih hg
        refine ⟨?_, by simp⟩
        rw [List.cons_append, ihe]

theorem findFence_eq_some {p b w r : Str} (h : findFence p = some (b, w, r)) :
    p = b ++ '`' :: '`' :: '`' :: (w ++ '\n' :: r) := by
  unfold findFence at h
  cases hf : fenceAt p with
  | some wr =>
    obtain ⟨w', r'⟩ := wr
    rw [hf] at h
    simp only [Option.some_inj, Prod.mk.injEq] at h
    obtain ⟨hb, hw, hr⟩ := h
    subst hb; subst hw; subst hr
    simpa using (fenceAt_eq_some hf).1
  | none =>
    rw [hf] at h
    exact (goFence_eq_some h).1

theorem goHeldFence_eq_some {p b hd : Str} (h : goHeldFence p = some (b, hd)) :
    p = b ++ hd ∧ fenceToEnd hd = true := by
  induction p generalizing b with
  | nil => simp [goHeldFence] at h
  | cons c rest ih =>
    simp only [goHeldFence] at h
    by_cases hc : c = '\n'
    · rw [if_pos hc] at h
      by_cases hf : fenceToEnd rest
      · rw [if_pos hf] at h
        simp only [Option.some_inj, Prod.mk.injEq] at h
        obtain ⟨hb, hh⟩ := h
        subst hb; subst hh; subst hc
        exact ⟨rfl, hf⟩
      · rw [if_neg hf] at h
        cases hg : goHeldFence rest with
        | none => rw [hg] at h; simp at h
        | some bh =>
          obtain ⟨b', h'⟩ := bh
          rw [hg] at h
          simp only [Option.some_inj, Prod.mk.injEq] at h
          obtain ⟨hb, hh⟩ := h
          subst hb; subst hh
          obtain ⟨ihe, ihf⟩ := ih hg
          exact ⟨by rw [List.cons_append, ihe], ihf⟩
    · rw [if_neg hc] at h
      cases hg : goHeldFence rest with
      | none => rw [hg] at h; simp at h
      | some bh =>
        obtain ⟨b', h'⟩ := bh
        rw [hg] at h
        simp only [Option.some_inj, Prod.mk.injEq] at h
        obtain ⟨hb, hh⟩ := h
        subst hb; subst hh
        obtain ⟨ihe, ihf⟩ := ih hg
        exact ⟨by rw [List.cons_append, ihe], ihf⟩

theorem findHeldFence_eq_some {p b hd : Str}
    (h : findHeldFence p = some (b, hd)) :
    p = b ++ hd ∧ fenceToEnd hd = true := by
  unfold findHeldFence at h
  by_cases hf : fenceToEnd p
  · rw [if_pos hf] at h
    simp only [Option.some_inj, Prod.mk.injEq] at h
    obtain ⟨hb, hh⟩ := h
    subst hb; subst hh
    exact ⟨rfl, hf⟩
  · rw [if_neg hf] at h
    exact goHeldFence_eq_some h

theorem trailingHold_eq_some {p pre hd : Str}
    (h : trailingHold p = some (pre, hd)) : p = pre ++ hd := by
  unfold trailingHold at h
  split_ifs at h with h1 h2 h3
  · simp only [Option.some_inj, Prod.mk.injEq] at h
    obtain ⟨hb, hh⟩ := h
    subst hb; subst hh
    rfl
  · obtain ⟨t, ht⟩ := startsWith_iff.mp h2
    simp only [Option.some_inj, Prod.mk.injEq] at h
    obtain ⟨hb, hh⟩ := h
    subst hb; subst hh
    conv_lhs => rw [← List.reverse_reverse p, ht]
    rw [ht]
    simp
  · obtain ⟨t, ht⟩ := startsWith_iff.mp h3
    simp only [Option.some_inj, Prod.mk.injEq] at h
    obtain ⟨hb, hh⟩ := h
    subst hb; subst hh
    conv_lhs => rw [← List.reverse_reverse p, ht]
    rw [ht]
    simp

/-! ### Loop fuel: every progressing step strictly shortens `pending` -/

theorem processChunk_true_shrink (hl : Str → Str → Str) (st : BufferState)
    (h : (processChunk hl st).2.2 = true) :
    (processChunk hl st).2.1.pending.length < st.pending.length := by
  obtain ⟨s, lb, lang, pend⟩ := st
  cases s with
  | NORMAL =>
    simp only [processChunk, processNormalState] at h ⊢
    cases hf : findFence pend with
    | some bwr =>
      obtain ⟨b, w, a⟩ := bwr
      simp only
      have hchar := findFence_eq_some hf
      simp only at hchar
      rw [hchar]
      simp [List.length_append]
      omega
    | none =>
      rw [hf] at h
      cases hh : findHeldFence pend with
      | some bh =>
        obtain ⟨b', h'⟩ := bh
        rw [hh] at h
        simp at h
      | none =>
        rw [hh] at h
        cases ht : trailingHold pend with
        | some ph =>
          obtain ⟨p', h'⟩ := ph
          rw [ht] at h
          simp at h
        | none =>
          rw [ht] at h
          simp at h
  | CODE_FENCE_OPENING =>
    simp only [processChunk, processCodeFenceOpeningState] at h ⊢
    cases hs : splitAtNl pend with
    | none => rw [hs] at h; simp at h
    | some lr =>
      obtain ⟨l, r⟩ := lr
      simp only
      have hchar := (splitAtNl_eq_some hs).1
      simp only at hchar
      rw [hchar]
      simp [List.length_append]
      omega
  | CODE_BLOCK =>
    simp only [processChunk, processCodeBlockState] at h ⊢
    cases hs : splitAtNl pend with
    | none => rw [hs] at h; simp at h
    | some lr =>
      obtain ⟨l, r⟩ := lr
      simp only
      have hchar := (splitAtNl_eq_some hs).1
      simp only at hchar
      rw [hchar]
      by_cases hcf : isCloseFence (lb ++ l)
      · rw [if_pos hcf]
        simp [List.length_append]
        omega
      · rw [if_neg hcf]
        simp [List.length_append]
        omega

theorem writeLoop_succ (hl : Str → Str → Str) (n : Nat) (st : BufferState) :
    writeLoop hl (n + 1) st =
      (if st.pending = [] then ([], st)
       else
         if (processChunk hl st).2.2 then
           ((processChunk hl st).1 ++
              (writeLoop hl n (processChunk hl st).2.1).1,
             (writeLoop hl n (processChunk hl st).2.1).2)
         else ((processChunk hl st).1, (processChunk hl st).2.1)) := rfl

theorem writeLoop_empty (hl : Str → Str → Str) (n : Nat) (st : BufferState)
    (h : st.pending = []) : writeLoop hl n st = ([], st) := by
  cases n with
  | zero => rfl
  | succ k => rw [writeLoop_succ, if_pos h]

theorem writeLoop_canon (hl : Str → Str → Str) :
    ∀ (n : Nat) (st : BufferState), st.pending.length < n →
      writeLoop hl n st = writeLoop hl (st.pending.length + 1) st := by
  intro n
  induction n using Nat.strong_induction_on with
  | _ n ih =>
    intro st h
    cases n with
    | zero => omega
    | succ k =>
      by_cases hp : st.pending = []
      · rw [writeLoop_empty hl _ _ hp, writeLoop_empty hl _ _ hp]
      · rw [writeLoop_succ, writeLoop_succ, if_neg hp, if_neg hp]
        by_cases hr : (processChunk hl st).2.2
        · rw [if_pos hr, if_pos hr]
          have hlt := processChunk_true_shrink hl st hr
          have h1 := ih k (by omega) (processChunk hl st).2.1 (by omega)
          have h2 := ih st.pending.length (by omega) (processChunk hl st).2.1
            (by omega)
          rw [h1, h2]
        · rw [if_neg hr, if_neg hr]

theorem writeLoop_fuel (hl : Str → Str → Str) {n m : Nat} (st : BufferState)
    (hn : st.pending.length < n) (hm : st.pending.length < m) :
    writeLoop hl n st = writeLoop hl m st := by
  rw [writeLoop_canon hl n st hn, writeLoop_canon hl m st hm]

/-! ### Single-step `write` evaluation lemmas -/

theorem runWrites_cons (hl : Str → Str → Str) (st : BufferState) (c : Str)
    (cs : List Str) :
    runWrites hl st (c :: cs) =
      ((write hl st c).1 ++ (runWrites hl (write hl st c).2 cs).1,
        (runWrites hl (write hl st c).2 cs).2) := rfl

theorem runWrites_nil (hl : Str → Str → Str) (st : BufferState) :
    runWrites hl st [] = ([], st) := rfl

/-- A `write` whose single loop step reports no progress. -/
theorem write_single_false (hl : Str → Str → Str) (s : BState) (lb : Str)
    (lang : Option Str) (p chunk q : Str) (out : List Str) (st' : BufferState)
    (hq : p ++ chunk = q) (hne : q ≠ [])
    (h : processChunk hl ⟨s, lb, lang, q⟩ = (out, st', false)) :
    write hl ⟨s, lb, lang, p⟩ chunk = (out, st') := by
  unfold write
  simp only
  rw [hq, writeLoop_succ, if_neg hne, h]
  simp

/-- A `write` whose single loop step makes progress and consumes all pending
input, after which the loop stops. -/
theorem write_single_true (hl : Str → Str → Str) (s : BState) (lb : Str)
    (lang : Option Str) (p chunk q : Str) (out : List Str) (st' : BufferState)
    (hq : p ++ chunk = q) (hne : q ≠ [])
    (h : processChunk hl ⟨s, lb, lang, q⟩ = (out, st', true))
    (hdone : st'.pending = []) :
    write hl ⟨s, lb, lang, p⟩ chunk = (out, st') := by
  unfold write
  simp only
  rw [hq, writeLoop_succ, if_neg hne, h]
  simp [writeLoop_empty hl _ _ hdone]

/-! ### C2: an unclosed block is flushed highlighted -/

/-- C2: write an opening fence with language `L`, then a partial code line
with no newline and no closing fence; at `flush` the machine is still in the
code-block state with that line buffered, and `flush` emits exactly the
buffered code passed through the highlighter with the current language — the
code is not dropped and not emitted raw. -/
theorem flush_highlights_unclosed (hl : Str → Str → Str) (L code : Str)
    (hL : L ≠ []) (hLw : L.all isWordChar = true)
    (hcode : code ≠ []) (hnl : '\n' ∉ code) :
    totalPieces hl ['`' :: '`' :: '`' :: (L ++ ['\n']), code] = [hl code L] := by
  have hff : findFence ('`' :: '`' :: '`' :: (L ++ ['\n'])) = some ([], L, []) := by
    unfold findFence
    rw [show (L ++ ['\n'] : Str) = L ++ '\n' :: [] from rfl, fenceAt_intro [] hLw]
  have h1 : write hl initialState ('`' :: '`' :: '`' :: (L ++ ['\n'])) =
      ([], ⟨BState.CODE_BLOCK, [], some L, []⟩) := by
    refine write_single_true hl _ _ _ _ _ ('`' :: '`' :: '`' :: (L ++ ['\n']))
      _ _ (by simp) (by simp) ?_ rfl
    simp only [processChunk, processNormalState, hff]
    unfold langOpt
    rw [if_neg hL]
    rfl
  have h2 : write hl ⟨BState.CODE_BLOCK, [], some L, []⟩ code =
      ([], ⟨BState.CODE_BLOCK, code, some L, []⟩) := by
    refine write_single_false hl _ _ _ _ _ code _ _ (by simp) hcode ?_
    simp only [processChunk, processCodeBlockState, splitAtNl_of_no_nl hnl]
    simp
  unfold totalPieces
  rw [runWrites_cons, h1]
  simp only
  rw [runWrites_cons, h2]
  simp only [runWrites_nil]
  unfold flushOut
  rw [if_pos ⟨rfl, hcode⟩]
  simp

theorem flush_highlights_unclosed_witness :
    ("js".data ≠ ([] : Str)) ∧
    totalPieces (fun c l => '<' :: l ++ '|' :: c ++ ['>'])
      ['`' :: '`' :: '`' :: ("js".data ++ ['\n']), "const x = 1;".data] =
      ["<js|const x = 1;>".data] :=
  ⟨by decide,
    (flush_highlights_unclosed (fun c l => '<' :: l ++ '|' :: c ++ ['>'])
      "js".data "const x = 1;".data (by decide) (by decide) (by decide)
      (by decide)).trans (by decide)⟩

/-! ### C4: fence markers split across writes are still detected -/

/-- C4: the opening fence arriving as `` ```java `` then `script\n`, and the
closing fence arriving as `` `` `` then `` `\n `` after the code line, are
detected correctly: exactly the single enclosed code line is routed through
the highlighter (tagged `javascript`) and emitted, and — as the identity
instance shows — no fence-marker backtick reaches the output. -/
theorem split_marker_robust (hl : Str → Str → Str) :
    totalPieces hl ["```java".data, "script\n".data, "const x = 1;\n".data,
      "``".data, "`\n".data] =
      [hl "const x = 1;".data "javascript".data ++ ['\n']] ∧
    totalOut (fun c _ => c) ["```java".data, "script\n".data,
      "const x = 1;\n".data, "``".data, "`\n".data] = "const x = 1;\n".data := by
  constructor
  · have h1 : write hl initialState "```java".data =
        ([], ⟨BState.CODE_FENCE_OPENING, [], none, "```java".data⟩) := by
      refine write_single_false hl _ _ _ _ _ "```java".data _ _ (by simp)
        (by decide) ?_
      exact (by decide :
        processNormalState ⟨BState.NORMAL, [], none, "```java".data⟩ =
          ([], ⟨BState.CODE_FENCE_OPENING, [], none, "```java".data⟩, false))
    have h2 : write hl ⟨BState.CODE_FENCE_OPENING, [], none, "```java".data⟩
        "script\n".data =
        ([], ⟨BState.CODE_BLOCK, [], some "javascript".data, []⟩) := by
      refine write_single_true hl _ _ _ _ _
        "```javascript\n".data _ _ (by decide) (by decide) ?_ rfl
      exact (by decide :
        processCodeFenceOpeningState
          ⟨BState.CODE_FENCE_OPENING, [], none, "```javascript\n".data⟩ =
          ([], ⟨BState.CODE_BLOCK, [], some "javascript".data, []⟩, true))
    have h3 : write hl ⟨BState.CODE_BLOCK, [], some "javascript".data, []⟩
        "const x = 1;\n".data =
        ([hl "const x = 1;".data "javascript".data ++ ['\n']],
          ⟨BState.CODE_BLOCK, [], some "javascript".data, []⟩) := by
      refine write_single_true hl _ _ _ _ _ "const x = 1;\n".data _ _
        (by simp) (by decide) ?_ rfl
      simp only [processChunk, processCodeBlockState]
      rw [show splitAtNl "const x = 1;\n".data =
        some ("const x = 1;".data, []) from by decide]
      simp only
      rw [if_neg (show ¬ isCloseFence (([] : Str) ++ "const x = 1;".data) = true
        from by decide)]
      rfl
    have h4 : write hl ⟨BState.CODE_BLOCK, [], some "javascript".data, []⟩
        "``".data =
        ([], ⟨BState.CODE_BLOCK, "``".data, some "javascript".data, []⟩) := by
      refine write_single_false hl _ _ _ _ _ "``".data _ _ (by simp)
        (by decide) ?_
      simp only [processChunk, processCodeBlockState]
      rw [show splitAtNl "``".data = none from by decide]
      rfl
    have h5 : write hl ⟨BState.CODE_BLOCK, "``".data, some "javascript".data, []⟩
        "`\n".data = ([], ⟨BState.NORMAL, [], none, []⟩) := by
      refine write_single_true hl _ _ _ _ _ "`\n".data _ _ (by simp)
        (by decide) ?_ rfl
      simp only [processChunk, processCodeBlockState]
      rw [show splitAtNl "`\n".data = some ("`".data, []) from by decide]
      simp only
      rw [if_pos (show isCloseFence ("``".data ++ "`".data) = true from by decide)]
    unfold totalPieces
    rw [runWrites_cons, h1]
    simp only
    rw [runWrites_cons, h2]
    simp only
    rw [runWrites_cons, h3]
    simp only
    rw [runWrites_cons, h4]
    simp only
    rw [runWrites_cons, h5]
    simp only [runWrites_nil]
    simp [flushOut]
  · decide

/-! ### Small scanning facts used by C5 and C6 -/

theorem dropWhile_all {P : Char → Bool} {L : Str} (h : L.all P = true) :
    L.dropWhile P = [] := by
  induction L with
  | nil => rfl
  | cons c cs ih =>
    simp only [List.all_cons, Bool.and_eq_true] at h
    simp [List.dropWhile, h.1, ih h.2]

theorem goFence_no_nl {p : Str} (h : '\n' ∉ p) : goFence p = none := by
  induction p with
  | nil => rfl
  | cons c rest ih =>
    have hc : c ≠ '\n' := fun hc => h (hc ▸ List.mem_cons_self c rest)
    have hr : '\n' ∉ rest := fun hr => h (List.mem_cons_of_mem c hr)
    simp [goFence, hc, ih hr]

theorem goFence_append_nl {a : Str} (h : '\n' ∉ a) :
    goFence (a ++ ['\n']) = none := by
  induction a with
  | nil => rfl
  | cons c rest ih =>
    have hc : c ≠ '\n' := fun hc => h (hc ▸ List.mem_cons_self c rest)
    have hr : '\n' ∉ rest := fun hr => h (List.mem_cons_of_mem c hr)
    rw [List.cons_append]
    simp [goFence, hc, ih hr]

theorem goHeldFence_append_nl {a : Str} (h : '\n' ∉ a) :
    goHeldFence (a ++ ['\n']) = none := by
  induction a with
  | nil => rfl
  | cons c rest ih =>
    have hc : c ≠ '\n' := fun hc => h (hc ▸ List.mem_cons_self c rest)
    have hr : '\n' ∉ rest := fun hr => h (List.mem_cons_of_mem c hr)
    rw [List.cons_append]
    simp [goHeldFence, hc, ih hr]

theorem fenceToEnd_intro {w : Str} (hw : w.all isWordChar = true) :
    fenceToEnd ('`' :: '`' :: '`' :: w) = true := by
  unfold fenceToEnd
  have e : ("```".data : Str) = ['`', '`', '`'] := by decide
  have h1 : startsWith "```".data ('`' :: '`' :: '`' :: w) = true :=
    startsWith_iff.mpr ⟨w, by rw [e]; simp⟩
  rw [h1]
  simpa using hw

theorem notWord_of_spacetab {c : Char} (h : (c = ' ' || c = '\t') = true) :
    isWordChar c = false := by
  rcases Bool.or_eq_true_iff.mp h with h1 | h1
  · rw [decide_eq_true_iff] at h1
    subst h1
    decide
  · rw [decide_eq_true_iff] at h1
    subst h1
    decide

/-! ### C5: trailing whitespace on the opening fence line -/

/-- C5 counterexample: the complete fence line `` ```python␣␣\n `` written in
one chunk is NOT accepted as opening a code block — the machine stays in
`NORMAL` and passes the whole line through verbatim.  Acceptance therefore
depends on how the line is split across `write` calls, contrary to the
claim. -/
theorem trailing_ws_fence_counterexample :
    (runWrites (fun c _ => c) initialState ["```python  \n".data]).2.state
      = BState.NORMAL ∧
    totalOut (fun c _ => c) ["```python  \n".data] = "```python  \n".data := by
  constructor
  · decide
  · decide

/-- C5 amended: the permissive acceptance of trailing whitespace after the
language word holds only on the `CODE_FENCE_OPENING` path — when the
backticks and language word arrive in a `write` without the newline, the
completing line tolerates trailing whitespace and the block opens with
that language.  When the complete fence line including the trailing
whitespace arrives within a single `write`, it is not recognized as a fence
and is emitted verbatim, the machine staying in `NORMAL`. -/
theorem trailing_ws_fence_amended (hl : Str → Str → Str) (w t : Str)
    (hw : w ≠ []) (hww : w.all isWordChar = true)
    (ht : t ≠ []) (hts : t.all (fun c => c = ' ' || c = '\t') = true) :
    (runWrites hl initialState ['`' :: '`' :: '`' :: w, t ++ ['\n']] =
      ([], ⟨BState.CODE_BLOCK, [], some w, []⟩)) ∧
    (runWrites hl initialState ['`' :: '`' :: '`' :: (w ++ t ++ ['\n'])] =
      (['`' :: '`' :: '`' :: (w ++ t ++ ['\n'])],
        ⟨BState.NORMAL, [], none, []⟩)) := by
  obtain ⟨c, t', rfl⟩ : ∃ c t', t = c :: t' := by
    cases t with
    | nil => exact absurd rfl ht
    | cons c t' => exact ⟨c, t', rfl⟩
  simp only [List.all_cons, Bool.and_eq_true] at hts
  have hcw : isWordChar c = false := notWord_of_spacetab hts.1
  have hnlw : '\n' ∉ w := by
    intro hm
    have := List.all_eq_true.mp hww _ hm
    simp [isWordChar] at this
  have hnlt : '\n' ∉ c :: t' := by
    intro hm
    rcases List.mem_cons.mp hm with h1 | h1
    · rw [← h1] at hts
      simp at hts
    · have h2 := List.all_eq_true.mp hts.2 _ h1
      simp at h2
  constructor
  · -- split arrival: ``` + word first, whitespace + newline later
    have hfa : fenceAt ('`' :: '`' :: '`' :: w) = none := by
      unfold fenceAt
      rw [if_neg]
      intro hcontra
      have h2 := hcontra.2
      rw [show (('`' :: '`' :: '`' :: w : Str)).drop 3 = w from rfl,
        dropWhile_all hww] at h2
      simp at h2
    have hff : findFence ('`' :: '`' :: '`' :: w) = none := by
      unfold findFence
      rw [hfa]
      exact goFence_no_nl (by
        intro hm
        rcases List.mem_cons.mp hm with h1 | h1
        · simp at h1
        rcases List.mem_cons.mp h1 with h2 | h2
        · simp at h2
        rcases List.mem_cons.mp h2 with h3 | h3
        · simp at h3
        · exact hnlw h3)
    have hhf : findHeldFence ('`' :: '`' :: '`' :: w) =
        some ([], '`' :: '`' :: '`' :: w) := by
      unfold findHeldFence
      rw [if_pos (fenceToEnd_intro hww)]
    have h1 : write hl initialState ('`' :: '`' :: '`' :: w) =
        ([], ⟨BState.CODE_FENCE_OPENING, [], none, '`' :: '`' :: '`' :: w⟩) := by
      refine write_single_false hl _ _ _ _ _ ('`' :: '`' :: '`' :: w) _ _
        (by simp) (by simp) ?_
      simp only [processChunk, processNormalState, hff, hhf]
      rfl
    have hsplit : splitAtNl ('`' :: '`' :: '`' :: w ++ (c :: t' ++ ['\n'])) =
        some ('`' :: '`' :: '`' :: (w ++ c :: t'), []) := by
      rw [show ('`' :: '`' :: '`' :: w ++ (c :: t' ++ ['\n']) : Str) =
        ('`' :: '`' :: '`' :: (w ++ c :: t')) ++ '\n' :: [] by simp]
      refine splitAtNl_append [] ?_
      intro hm
      rcases List.mem_cons.mp hm with h1 | h1
      · simp at h1
      rcases List.mem_cons.mp h1 with h2 | h2
      · simp at h2
      rcases List.mem_cons.mp h2 with h3 | h3
      · simp at h3
      rcases List.mem_append.mp h3 with h4 | h4
      · exact hnlw h4
      · exact hnlt h4
    have h2 : write hl ⟨BState.CODE_FENCE_OPENING, [], none, '`' :: '`' :: '`' :: w⟩
        (c :: t' ++ ['\n']) = ([], ⟨BState.CODE_BLOCK, [], some w, []⟩) := by
      refine write_single_true hl _ _ _ _ _
        ('`' :: '`' :: '`' :: w ++ (c :: t' ++ ['\n'])) _ _ rfl (by simp) ?_ rfl
      simp only [processChunk, processCodeFenceOpeningState, hsplit]
      have hlang : (if startsWith "```".data ('`' :: '`' :: '`' :: (w ++ c :: t'))
          then (('`' :: '`' :: '`' :: (w ++ c :: t') : Str)).drop 3
            |>.takeWhile isWordChar
          else []) = w := by
        have e : ("```".data : Str) = ['`', '`', '`'] := by decide
        rw [if_pos (startsWith_iff.mpr ⟨w ++ c :: t', by rw [e]; simp⟩)]
        rw [show (('`' :: '`' :: '`' :: (w ++ c :: t') : Str)).drop 3 =
          w ++ c :: t' from rfl]
        exact takeWhile_append_all t' hww hcw
      rw [hlang]
      unfold langOpt
      rw [if_neg hw]
    rw [runWrites_cons, h1]
    simp only
    rw [runWrites_cons, h2]
    rfl
  · -- single-chunk arrival: the whole line passes through verbatim
    have hfa : fenceAt ('`' :: '`' :: '`' :: (w ++ c :: t' ++ ['\n'])) = none := by
      unfold fenceAt
      rw [if_neg]
      intro hcontra
      have h2 := hcontra.2
      rw [show (('`' :: '`' :: '`' :: (w ++ c :: t' ++ ['\n']) : Str)).drop 3 =
        w ++ c :: (t' ++ ['\n']) by simp] at h2
      rw [dropWhile_append_all (t' ++ ['\n']) hww hcw] at h2
      simp only [List.head?] at h2
      have : c = '\n' := by injection h2
      exact hnlt (this ▸ List.mem_cons_self c t')
    have hnla : '\n' ∉ ('`' :: '`' :: '`' :: (w ++ c :: t') : Str) := by
      intro hm
      rcases List.mem_cons.mp hm with h1 | h1
      · simp at h1
      rcases List.mem_cons.mp h1 with h2 | h2
      · simp at h2
      rcases List.mem_cons.mp h2 with h3 | h3
      · simp at h3
      rcases List.mem_append.mp h3 with h4 | h4
      · exact hnlw h4
      · exact hnlt h4
    have hgf : goFence ('`' :: '`' :: '`' :: (w ++ c :: t' ++ ['\n'])) = none := by
      rw [show ('`' :: '`' :: '`' :: (w ++ c :: t' ++ ['\n']) : Str) =
        ('`' :: '`' :: '`' :: (w ++ c :: t')) ++ ['\n'] by simp]
      exact goFence_append_nl hnla
    have hfe : fenceToEnd ('`' :: '`' :: '`' :: (w ++ c :: t' ++ ['\n'])) = false := by
      unfold fenceToEnd
      rw [show (('`' :: '`' :: '`' :: (w ++ c :: t' ++ ['\n']) : Str)).drop 3 =
        w ++ c :: (t' ++ ['\n']) by simp]
      have : ((w ++ c :: (t' ++ ['\n'])).all isWordChar) = false := by
        rw [List.all_append]
        simp [List.all_cons, hcw]
      rw [this]
      simp
    have hghf : goHeldFence ('`' :: '`' :: '`' :: (w ++ c :: t' ++ ['\n'])) = none := by
      rw [show ('`' :: '`' :: '`' :: (w ++ c :: t' ++ ['\n']) : Str) =
        ('`' :: '`' :: '`' :: (w ++ c :: t')) ++ ['\n'] by simp]
      exact goHeldFence_append_nl hnla
    have hth : trailingHold ('`' :: '`' :: '`' :: (w ++ c :: t' ++ ['\n'])) = none := by
      have hrev : ('`' :: '`' :: '`' :: (w ++ c :: t' ++ ['\n']) : Str).reverse =
          '\n' :: (('`' :: '`' :: '`' :: (w ++ c :: t')) : Str).reverse := by
        rw [show ('`' :: '`' :: '`' :: (w ++ c :: t' ++ ['\n']) : Str) =
          ('`' :: '`' :: '`' :: (w ++ c :: t')) ++ ['\n'] by simp]
        simp
      have hcond1 : ¬(('`' :: '`' :: '`' :: (w ++ c :: t' ++ ['\n']) : Str) = ['`'] ∨
          ('`' :: '`' :: '`' :: (w ++ c :: t' ++ ['\n']) : Str) = ['`', '`']) := by
        intro hcontra
        rcases hcontra with h1 | h1 <;>
          · have h2 := congrArg List.reverse h1
            rw [hrev] at h2
            simp at h2
      unfold trailingHold
      rw [if_neg hcond1, if_neg (by simp [startsWith]), if_neg (by simp [startsWith])]
    have h1 : write hl initialState ('`' :: '`' :: '`' :: (w ++ c :: t' ++ ['\n'])) =
        (['`' :: '`' :: '`' :: (w ++ c :: t' ++ ['\n'])],
          ⟨BState.NORMAL, [], none, []⟩) := by
      refine write_single_false hl _ _ _ _ _
        ('`' :: '`' :: '`' :: (w ++ c :: t' ++ ['\n'])) _ _ (by simp)
        (by simp) ?_
      simp only [processChunk, processNormalState]
      unfold findFence
      rw [hfa, hgf]
      unfold findHeldFence
      rw [hfe, hghf]
      simp only [if_false]
      rw [hth]
      simp
    rw [runWrites_cons, h1]
    rfl

theorem trailing_ws_fence_amended_witness :
    ("python".data ≠ ([] : Str)) ∧
    (runWrites (fun c _ => c) initialState
      ['`' :: '`' :: '`' :: "python".data, "  ".data ++ ['\n']] =
      ([], ⟨BState.CODE_BLOCK, [], some "python".data, []⟩)) :=
  ⟨by decide,
    (trailing_ws_fence_amended (fun c _ => c) "python".data "  ".data
      (by decide) (by decide) (by decide) (by decide)).1⟩

/-! ### C6: plain passthrough -/

/-- Does the text contain three consecutive backticks anywhere? -/
def hasTriple : Str → Bool
  | [] => false
  | c :: r => startsWith "```".data (c :: r) || hasTriple r

/-- Scan for a three-backtick run right after a newline. -/
def afterNlTriple : Str → Bool
  | [] => false
  | c :: r => (c = '\n' && startsWith "```".data r) || afterNlTriple r

/-- The hypothesis of C6 as stated: a three-backtick sequence at the start
of some line (position 0 or right after a newline). -/
def hasLineStartTriple (s : Str) : Bool :=
  startsWith "```".data s || afterNlTriple s

/-- Concatenation of a list of strings. -/
def concatStr (cs : List Str) : Str := cs.foldr (· ++ ·) []

theorem startsWith_append_right {p s : Str} (y : Str)
    (h : startsWith p s = true) : startsWith p (s ++ y) = true := by
  obtain ⟨t, rfl⟩ := startsWith_iff.mp h
  exact startsWith_iff.mpr ⟨t ++ y, by simp⟩

theorem hasTriple_append_right {s : Str} (y : Str) (h : hasTriple s = true) :
    hasTriple (s ++ y) = true := by
  induction s with
  | nil => simp [hasTriple] at h
  | cons c r ih =>
    simp only [hasTriple, Bool.or_eq_true] at h
    rcases h with h1 | h1
    · rw [List.cons_append]
      simp only [hasTriple, Bool.or_eq_true]
      left
      have := startsWith_append_right (p := "```".data) (s := c :: r) y h1
      simpa using this
    · rw [List.cons_append]
      simp only [hasTriple, Bool.or_eq_true]
      right
      exact ih h1

theorem hasTriple_append_left {s : Str} (x : Str) (h : hasTriple s = true) :
    hasTriple (x ++ s) = true := by
  induction x with
  | nil => simpa using h
  | cons c r ih =>
    rw [List.cons_append]
    simp only [hasTriple, Bool.or_eq_true]
    right
    exact ih

theorem hasTriple_ccc (x y : Str) :
    hasTriple (x ++ '`' :: '`' :: '`' :: y) = true := by
  apply hasTriple_append_left
  simp only [hasTriple, Bool.or_eq_true]
  left
  refine startsWith_iff.mpr ⟨y, ?_⟩
  have e : ("```".data : Str) = ['`', '`', '`'] := by decide
  simp [e]

theorem findFence_none_of_no_triple {p : Str} (h : hasTriple p = false) :
    findFence p = none := by
  cases hf : findFence p with
  | none => rfl
  | some bwr =>
    obtain ⟨b, w, a⟩ := bwr
    exfalso
    have := findFence_eq_some hf
    rw [this, hasTriple_ccc] at h
    simp at h

theorem findHeldFence_none_of_no_triple {p : Str} (h : hasTriple p = false) :
    findHeldFence p = none := by
  cases hf : findHeldFence p with
  | none => rfl
  | some bh =>
    obtain ⟨b, hd⟩ := bh
    exfalso
    obtain ⟨he, hfe⟩ := findHeldFence_eq_some hf
    obtain ⟨w, hw, _⟩ := fenceToEnd_eq_true hfe
    rw [he, hw, show (b ++ '`' :: '`' :: '`' :: w : Str) =
      b ++ '`' :: '`' :: '`' :: w from rfl, hasTriple_ccc] at h
    simp at h

/-- One `write` on no-triple input: the machine stays in `NORMAL`, keeps its
line buffer and language, and the emitted output plus the held-back pending
text is exactly the old pending text plus the chunk. -/
theorem write_no_triple (hl : Str → Str → Str) (lb : Str) (lang : Option Str)
    (p chunk : Str) (h : hasTriple (p ++ chunk) = false) :
    (write hl ⟨BState.NORMAL, lb, lang, p⟩ chunk).2.state = BState.NORMAL ∧
    (write hl ⟨BState.NORMAL, lb, lang, p⟩ chunk).2.lineBuffer = lb ∧
    (write hl ⟨BState.NORMAL, lb, lang, p⟩ chunk).2.language = lang ∧
    concatStr (write hl ⟨BState.NORMAL, lb, lang, p⟩ chunk).1 ++
      (write hl ⟨BState.NORMAL, lb, lang, p⟩ chunk).2.pending = p ++ chunk := by
  by_cases hpc : p ++ chunk = []
  · have hw : write hl ⟨BState.NORMAL, lb, lang, p⟩ chunk =
        ([], ⟨BState.NORMAL, lb, lang, p ++ chunk⟩) := by
      unfold write
      simp only
      exact writeLoop_empty hl _ _ hpc
    rw [hw]
    simp [concatStr, hpc]
  · have hstep : processChunk hl ⟨BState.NORMAL, lb, lang, p ++ chunk⟩ =
        (match trailingHold (p ++ chunk) with
         | some (before, held) =>
           (emitIfNonempty before, ⟨BState.NORMAL, lb, lang, held⟩, false)
         | none =>
           ([p ++ chunk], ⟨BState.NORMAL, lb, lang, []⟩, false)) := by
      simp only [processChunk, processNormalState,
        findFence_none_of_no_triple h, findHeldFence_none_of_no_triple h]
    cases hth : trailingHold (p ++ chunk) with
    | some ph =>
      obtain ⟨pre, held⟩ := ph
      rw [hth] at hstep
      have hw : write hl ⟨BState.NORMAL, lb, lang, p⟩ chunk =
          (emitIfNonempty pre, ⟨BState.NORMAL, lb, lang, held⟩) :=
        write_single_false hl _ _ _ _ _ _ _ _ rfl hpc hstep
      rw [hw]
      have hph := trailingHold_eq_some hth
      refine ⟨rfl, rfl, rfl, ?_⟩
      by_cases hpre : pre = []
      · simp [emitIfNonempty, hpre, concatStr]
        rw [hph, hpre]
        simp
      · simp [emitIfNonempty, hpre, concatStr]
        rw [hph]
    | none =>
      rw [hth] at hstep
      have hw : write hl ⟨BState.NORMAL, lb, lang, p⟩ chunk =
          ([p ++ chunk], ⟨BState.NORMAL, lb, lang, []⟩) :=
        write_single_false hl _ _ _ _ _ _ _ _ rfl hpc hstep
      rw [hw]
      simp [concatStr]

theorem concatStr_cons (c : Str) (cs : List Str) :
    concatStr (c :: cs) = c ++ concatStr cs := rfl

theorem concatStr_append (a b : List Str) :
    concatStr (a ++ b) = concatStr a ++ concatStr b := by
  induction a with
  | nil => simp [concatStr]
  | cons x xs ih =>
    rw [List.cons_append, concatStr_cons, ih, concatStr_cons, List.append_assoc]

/-- The run-level invariant behind the amended C6: on input containing no
three-backtick run, any sequence of writes keeps the machine in `NORMAL`
(untouched line buffer and language) and emits, together with the held-back
pending text, exactly the input fed so far. -/
theorem runWrites_no_triple (hl : Str → Str → Str) :
    ∀ (cs : List Str) (lb : Str) (lang : Option Str) (p : Str),
      hasTriple (p ++ concatStr cs) = false →
      (runWrites hl ⟨BState.NORMAL, lb, lang, p⟩ cs).2.state = BState.NORMAL ∧
      (runWrites hl ⟨BState.NORMAL, lb, lang, p⟩ cs).2.lineBuffer = lb ∧
      (runWrites hl ⟨BState.NORMAL, lb, lang, p⟩ cs).2.language = lang ∧
      concatStr (runWrites hl ⟨BState.NORMAL, lb, lang, p⟩ cs).1 ++
        (runWrites hl ⟨BState.NORMAL, lb, lang, p⟩ cs).2.pending =
        p ++ concatStr cs := by
  intro cs
  induction cs with
  | nil =>
    intro lb lang p h
    simp [runWrites_nil, concatStr]
  | cons c cs' ih =>
    intro lb lang p h
    have hc1 : hasTriple (p ++ c) = false := by
      by_contra hcontra
      rw [Bool.not_eq_false] at hcontra
      have h2 := hasTriple_append_right (concatStr cs') hcontra
      rw [show ((p ++ c) ++ concatStr cs' : Str) = p ++ concatStr (c :: cs') by
        simp [concatStr]] at h2
      rw [h2] at h
      simp at h
    obtain ⟨hs1, hs2, hs3, hs4⟩ := write_no_triple hl lb lang p c hc1
    obtain ⟨s', lb2, lang2, p2, hE⟩ :
        ∃ s' lb2 lang2 p2, (write hl ⟨BState.NORMAL, lb, lang, p⟩ c).2 =
          ⟨s', lb2, lang2, p2⟩ := ⟨_, _, _, _, rfl⟩
    rw [hE] at hs1 hs2 hs3 hs4
    simp only at hs1 hs2 hs3 hs4
    rw [hs1, hs2, hs3] at hE
    have hnt2 : hasTriple (p2 ++ concatStr cs') = false := by
      by_contra hcontra
      rw [Bool.not_eq_false] at hcontra
      have h2 := hasTriple_append_left
        (concatStr (write hl ⟨BState.NORMAL, lb, lang, p⟩ c).1) hcontra
      rw [show (concatStr (write hl ⟨BState.NORMAL, lb, lang, p⟩ c).1 ++
          (p2 ++ concatStr cs') : Str) =
          (concatStr (write hl ⟨BState.NORMAL, lb, lang, p⟩ c).1 ++ p2) ++
            concatStr cs' by simp] at h2
      rw [hs4] at h2
      rw [show ((p ++ c) ++ concatStr cs' : Str) = p ++ concatStr (c :: cs') by
        simp [concatStr]] at h2
      rw [h2] at h
      simp at h
    obtain ⟨ih1, ih2, ih3, ih4⟩ := ih lb lang p2 hnt2
    rw [runWrites_cons, hE]
    simp only
    refine ⟨ih1, ih2, ih3, ?_⟩
    rw [concatStr_append, List.append_assoc, ih4, ← List.append_assoc, hs4,
      concatStr_cons]
    simp

/-- C6 counterexample: the chunks `ab`, ``` `` ```, `` `c\n `` concatenate to
`` ab```c\n ``, which has no three-backtick sequence at the start of any
line; yet the buffer does not stay in `NORMAL` (it ends in `CODE_BLOCK`) and
the emitted output `ab` is not the input — the chunk boundary made the
machine treat the pending start as a line start. -/
theorem inline_backticks_counterexample :
    hasLineStartTriple (concatStr ["ab".data, "``".data, "`c\n".data]) = false ∧
    totalOut (fun c _ => c) ["ab".data, "``".data, "`c\n".data] ≠
      concatStr ["ab".data, "``".data, "`c\n".data] ∧
    (runWrites (fun c _ => c) initialState
      ["ab".data, "``".data, "`c\n".data]).2.state = BState.CODE_BLOCK := by
  refine ⟨by decide, by decide, by decide⟩

/-- C6 amended: for every input text containing no three-backtick substring
at all — in particular text with inline single or double backticks — and
every way of chunking it, the buffer stays in the `NORMAL` state and the
concatenation of everything emitted by the writes plus `flush` is the input,
byte for byte.  (The line-start-only condition of the original claim is not
preserved across chunk boundaries: the scanner treats the start of the
held-back pending text as a line start.) -/
theorem plain_passthrough (hl : Str → Str → Str) (cs : List Str)
    (h : hasTriple (concatStr cs) = false) :
    totalOut hl cs = concatStr cs ∧
    (runWrites hl initialState cs).2.state = BState.NORMAL := by
  obtain ⟨h1, h2, h3, h4⟩ := runWrites_no_triple hl cs [] none []
    (by simpa using h)
  have hinit : initialState = (⟨BState.NORMAL, [], none, []⟩ : BufferState) := rfl
  rw [hinit]
  refine ⟨?_, h1⟩
  have hfl : concatStr (flushOut hl
      (runWrites hl ⟨BState.NORMAL, [], none, []⟩ cs).2) =
      (runWrites hl ⟨BState.NORMAL, [], none, []⟩ cs).2.pending := by
    unfold flushOut
    rw [if_neg (by
      intro hcontra
      rw [h1] at hcontra
      simp at hcontra)]
    by_cases hp : (runWrites hl ⟨BState.NORMAL, [], none, []⟩ cs).2.pending = []
    · simp [hp, concatStr]
    · simp [hp, concatStr]
  show concatStr (totalPieces hl cs) = concatStr cs
  unfold totalPieces
  rw [hinit, concatStr_append, hfl, h4]
  simp

theorem plain_passthrough_witness :
    hasTriple (concatStr ["Here is `inline code` text.\n".data]) = false ∧
    totalOut (fun c _ => c) ["Here is `inline code` text.\n".data] =
      concatStr ["Here is `inline code` text.\n".data] :=
  ⟨by decide,
    (plain_passthrough (fun c _ => c) ["Here is `inline code` text.\n".data]
      (by decide)).1⟩

/-! ### C3: one highlighter invocation per complete code line -/

/-- A sequence of complete source lines, each terminated by a newline. -/
def joinNl (lines : List Str) : Str := concatStr (lines.map (· ++ ['\n']))

theorem writeLoop_code_lines (hl : Str → Str → Str) (L : Option Str) :
    ∀ (lines : List Str),
      (∀ l ∈ lines, '\n' ∉ l ∧ isCloseFence l = false) →
      ∀ n, (joinNl lines).length < n →
      writeLoop hl n ⟨BState.CODE_BLOCK, [], L, joinNl lines⟩ =
        (lines.map (fun l => hl l (L.getD "plaintext".data) ++ ['\n']),
          ⟨BState.CODE_BLOCK, [], L, []⟩) := by
  intro lines
  induction lines with
  | nil =>
    intro _ n _
    exact writeLoop_empty hl n _ rfl
  | cons l ls ih =>
    intro h n hn
    have hl1 := h l (List.mem_cons_self l ls)
    have hjoin : joinNl (l :: ls) = l ++ '\n' :: joinNl ls := by
      unfold joinNl
      rw [List.map_cons, concatStr_cons, List.append_assoc]
      rfl
    have hsplit : splitAtNl (joinNl (l :: ls)) = some (l, joinNl ls) := by
      rw [hjoin]
      exact splitAtNl_append _ hl1.1
    have hpendne : joinNl (l :: ls) ≠ [] := by
      rw [hjoin]
      cases l <;> simp
    have hstep : processChunk hl ⟨BState.CODE_BLOCK, [], L, joinNl (l :: ls)⟩ =
        ([hl l (L.getD "plaintext".data) ++ ['\n']],
          ⟨BState.CODE_BLOCK, [], L, joinNl ls⟩, true) := by
      simp only [processChunk, processCodeBlockState, hsplit]
      simp only [List.nil_append]
      rw [if_neg (by simp [hl1.2])]
    cases n with
    | zero => omega
    | succ m =>
      rw [writeLoop_succ, if_neg hpendne, hstep]
      simp only
      have hlen : (joinNl ls).length < m := by
        rw [hjoin] at hn
        simp [List.length_append] at hn
        omega
      rw [ih (fun x hx => h x (List.mem_cons_of_mem l hx)) m hlen]
      simp

/-- C3: from the code-block state, writing a sequence of complete,
newline-terminated code lines (none of them a closing fence) invokes the
highlighter exactly once per line, with the current language tag, and emits
each highlighted line followed by a newline, in order, before the next line
is examined; the line buffer is empty again after each line. -/
theorem code_block_per_line (hl : Str → Str → Str) (L : Option Str)
    (lines : List Str)
    (h : ∀ l ∈ lines, '\n' ∉ l ∧ isCloseFence l = false) :
    write hl ⟨BState.CODE_BLOCK, [], L, []⟩ (joinNl lines) =
      (lines.map (fun l => hl l (L.getD "plaintext".data) ++ ['\n']),
        ⟨BState.CODE_BLOCK, [], L, []⟩) := by
  unfold write
  simp only [List.nil_append]
  exact writeLoop_code_lines hl L lines h _ (by simp)

theorem code_block_per_line_witness :
    (∀ l ∈ [" x = 1".data, "y = [2]".data], '\n' ∉ l ∧ isCloseFence l = false) ∧
    write (fun c l => '<' :: l ++ '|' :: c ++ ['>'])
      ⟨BState.CODE_BLOCK, [], some "python".data, []⟩
      (joinNl [" x = 1".data, "y = [2]".data]) =
      (["<python| x = 1>\n".data, "<python|y = [2]>\n".data],
        ⟨BState.CODE_BLOCK, [], some "python".data, []⟩) :=
  ⟨by decide,
    (code_block_per_line (fun c l => '<' :: l ++ '|' :: c ++ ['>'])
      (some "python".data) [" x = 1".data, "y = [2]".data]
      (by decide)).trans (by decide)⟩

/-! ### C1: the round-trip invariant

Observation functions: stripping ANSI color escapes, and removing
code-fence marker lines.  `removeFenceMarkerLines` is the stateless removal
the claim describes (drop every line that is a fence marker per the
glossary: ``` plus an optional language word, or a closing ``` plus
trailing blanks); `dropFencesFrom` is the two-state filter that the machine
actually realizes on line-aligned input (an opening marker only counts in
normal mode, a closing marker only inside a block). -/

/-- Strip ANSI escape sequences: `\x1b` enters escape mode, which swallows
characters up to and including the next `m`. -/
def stripAnsiAux : Bool → Str → Str
  | _, [] => []
  | true, c :: r => stripAnsiAux (if c = 'm' then false else true) r
  | false, c :: r =>
    if c = '\x1b' then stripAnsiAux true r else c :: stripAnsiAux false r

/-- Strip all embedded ANSI escapes. -/
def stripAnsi (s : Str) : Str := stripAnsiAux false s

/-- The escape-scanner state after reading `s` from state `b`. -/
def escEnd : Bool → Str → Bool
  | b, [] => b
  | true, c :: r => escEnd (if c = 'm' then false else true) r
  | false, c :: r => escEnd (if c = '\x1b' then true else false) r

/-- A fence marker line per the glossary: three backticks plus an optional
language word (opening form), or three backticks plus trailing blanks
(closing form). -/
def isFenceMarkerLine (l : Str) : Bool := fenceToEnd l || isCloseFence l

/-- Remove every newline-terminated fence-marker line; the final
unterminated segment is kept. -/
def removeFenceMarkerLinesAux (cur : Str) : Str → Str
  | [] => cur
  | c :: rest =>
    if c = '\n' then
      if isFenceMarkerLine cur then removeFenceMarkerLinesAux [] rest
      else cur ++ '\n' :: removeFenceMarkerLinesAux [] rest
    else removeFenceMarkerLinesAux (cur ++ [c]) rest

def removeFenceMarkerLines (s : Str) : Str := removeFenceMarkerLinesAux [] s

/-- The two-state fence-line filter: in normal mode a strict opening marker
(```` ```word ````) is dropped and switches to block mode; in block mode a
closing marker (` ``` ` + blanks) is dropped and switches back; all other
lines are kept.  Returns the filtered text and the final mode. -/
def dropFencesFrom : Bool → Str → Str → Str × Bool
  | inB, cur, [] => (cur, inB)
  | inB, cur, c :: rest =>
    if c = '\n' then
      if inB then
        if isCloseFence cur then dropFencesFrom false [] rest
        else
          ((cur ++ '\n' :: (dropFencesFrom true [] rest).1),
            (dropFencesFrom true [] rest).2)
      else
        if fenceToEnd cur then dropFencesFrom true [] rest
        else
          ((cur ++ '\n' :: (dropFencesFrom false [] rest).1),
            (dropFencesFrom false [] rest).2)
    else dropFencesFrom inB (cur ++ [c]) rest

def dropFences (s : Str) : Str := (dropFencesFrom false [] s).1

/-- C1 counterexample: the same text `` abc```py\nx\n```\n `` fed as one
chunk versus as the two chunks `abc` + `` ```py\nx\n```\n `` produces
different results even after removing fence-marker lines and stripping
escapes (with the identity-like highlighter): the chunk boundary turns the
mid-line `` ```py `` into a recognized fence, so bytes are lost in one
chunking and not the other, and the two-chunk run does not reproduce the
input either. -/
theorem round_trip_counterexample :
    concatStr ["abc```py\nx\n```\n".data] =
      concatStr ["abc".data, "```py\nx\n```\n".data] ∧
    stripAnsi (removeFenceMarkerLines
        (totalOut (fun c _ => c) ["abc```py\nx\n```\n".data])) ≠
      stripAnsi (removeFenceMarkerLines
        (totalOut (fun c _ => c) ["abc".data, "```py\nx\n```\n".data])) ∧
    stripAnsi (removeFenceMarkerLines
        (totalOut (fun c _ => c) ["abc".data, "```py\nx\n```\n".data])) ≠
      removeFenceMarkerLines
        (concatStr ["abc".data, "```py\nx\n```\n".data]) := by
  refine ⟨by decide, by decide, by decide⟩

/-! Lemmas about the escape scanner. -/

theorem stripAnsi_eq (s : Str) : stripAnsi s = stripAnsiAux false s := rfl

theorem escEnd_append (a : Str) :
    ∀ (b : Str) (s : Bool), escEnd s (a ++ b) = escEnd (escEnd s a) b := by
  induction a with
  | nil => intro b s; cases s <;> rfl
  | cons c r ih =>
    intro b s
    cases s
    · rw [List.cons_append]
      simp only [escEnd]
      rw [ih]
    · rw [List.cons_append]
      simp only [escEnd]
      rw [ih]

theorem stripAnsiAux_append (a : Str) :
    ∀ (b : Str) (s : Bool),
      stripAnsiAux s (a ++ b) = stripAnsiAux s a ++ stripAnsiAux (escEnd s a) b := by
  induction a with
  | nil => intro b s; cases s <;> rfl
  | cons c r ih =>
    intro b s
    cases s
    · rw [List.cons_append]
      by_cases hc : c = '\x1b'
      · simp only [stripAnsiAux, escEnd, if_pos hc]
        rw [ih]
      · simp only [stripAnsiAux, escEnd, if_neg hc]
        rw [ih, List.cons_append]
    · rw [List.cons_append]
      simp only [stripAnsiAux, escEnd]
      rw [ih]

theorem escEnd_false_of_not_mem {a : Str} (h : '\x1b' ∉ a) :
    escEnd false a = false := by
  induction a with
  | nil => rfl
  | cons c r ih =>
    have hc : c ≠ '\x1b' := fun e => h (e ▸ List.mem_cons_self c r)
    have hr : '\x1b' ∉ r := fun m => h (List.mem_cons_of_mem c m)
    simp only [escEnd, if_neg hc]
    exact ih hr

theorem stripAnsi_of_not_mem {a : Str} (h : '\x1b' ∉ a) : stripAnsi a = a := by
  rw [stripAnsi_eq]
  induction a with
  | nil => rfl
  | cons c r ih =>
    have hc : c ≠ '\x1b' := fun e => h (e ▸ List.mem_cons_self c r)
    have hr : '\x1b' ∉ r := fun m => h (List.mem_cons_of_mem c m)
    simp only [stripAnsiAux, if_neg hc]
    rw [ih hr]

theorem not_esc_mem_stripAnsiAux (a : Str) :
    ∀ s : Bool, '\x1b' ∉ stripAnsiAux s a := by
  induction a with
  | nil => intro s; cases s <;> simp [stripAnsiAux]
  | cons c r ih =>
    intro s
    cases s
    · by_cases hc : c = '\x1b'
      · simp only [stripAnsiAux, if_pos hc]
        exact ih true
      · simp only [stripAnsiAux, if_neg hc]
        intro hm
        rcases List.mem_cons.mp hm with h1 | h2
        · exact hc h1.symm
        · exact ih false h2
    · simp only [stripAnsiAux]
      exact ih _

/-! Line-consumption lemmas for the two-state fence filter. -/

theorem dropFencesFrom_line_false :
    ∀ (l : Str), '\n' ∉ l → ∀ (cur rest : Str),
      dropFencesFrom false cur (l ++ '\n' :: rest) =
        if fenceToEnd (cur ++ l) then dropFencesFrom true [] rest
        else ((cur ++ l) ++ '\n' :: (dropFencesFrom false [] rest).1,
          (dropFencesFrom false [] rest).2) := by
  intro l
  induction l with
  | nil =>
    intro _ cur rest
    simp [dropFencesFrom]
  | cons c l' ih =>
    intro hnl cur rest
    have hc : c ≠ '\n' := fun e => hnl (e ▸ List.mem_cons_self c l')
    have hl' : '\n' ∉ l' := fun m => hnl (List.mem_cons_of_mem c m)
    rw [List.cons_append]
    simp only [dropFencesFrom]
    rw [if_neg hc, ih hl' (cur ++ [c]) rest]
    simp [List.append_assoc]

theorem dropFencesFrom_line_true :
    ∀ (l : Str), '\n' ∉ l → ∀ (cur rest : Str),
      dropFencesFrom true cur (l ++ '\n' :: rest) =
        if isCloseFence (cur ++ l) then dropFencesFrom false [] rest
        else ((cur ++ l) ++ '\n' :: (dropFencesFrom true [] rest).1,
          (dropFencesFrom true [] rest).2) := by
  intro l
  induction l with
  | nil =>
    intro _ cur rest
    simp [dropFencesFrom]
  | cons c l' ih =>
    intro hnl cur rest
    have hc : c ≠ '\n' := fun e => hnl (e ▸ List.mem_cons_self c l')
    have hl' : '\n' ∉ l' := fun m => hnl (List.mem_cons_of_mem c m)
    rw [List.cons_append]
    simp only [dropFencesFrom]
    rw [if_neg hc, ih hl' (cur ++ [c]) rest]
    simp [List.append_assoc]

theorem no_nl_of_fence {w : Str} (hall : w.all isWordChar = true) :
    '\n' ∉ ('`' :: '`' :: '`' :: w : Str) := by
  intro hm
  simp only [List.mem_cons] at hm
  rcases hm with h | h | h | h
  · exact absurd h (by decide)
  · exact absurd h (by decide)
  · exact absurd h (by decide)
  · exact absurd (List.all_eq_true.mp hall '\n' h) (by decide)

theorem fenceAt_of_fenceToEnd {l : Str} (h : fenceToEnd l = true) (r : Str) :
    ∃ w, fenceAt (l ++ '\n' :: r) = some (w, r) := by
  obtain ⟨w, hw, hall⟩ := fenceToEnd_eq_true h
  subst hw
  refine ⟨w, ?_⟩
  have e : ('`' :: '`' :: '`' :: w : Str) ++ '\n' :: r =
      '`' :: '`' :: '`' :: (w ++ '\n' :: r) := by simp
  rw [e, fenceAt_intro r hall]

theorem fenceToEnd_false_of_fenceAt_none {cur rest : Str}
    (hfa : fenceAt (cur ++ '\n' :: rest) = none) : fenceToEnd cur = false := by
  cases hb : fenceToEnd cur
  · rfl
  · obtain ⟨w, hw⟩ := fenceAt_of_fenceToEnd hb rest
    rw [hw] at hfa
    exact absurd hfa (by simp)

theorem dropFencesFrom_goFence :
    ∀ (p cur before w after : Str),
      '\n' ∉ cur →
      fenceAt (cur ++ p) = none →
      goFence p = some (before, w, after) →
      dropFencesFrom false cur p =
        ((cur ++ before) ++ (dropFencesFrom true [] after).1,
          (dropFencesFrom true [] after).2) := by
  intro p
  induction p with
  | nil => intro cur before w after _ _ hg; simp [goFence] at hg
  | cons c rest ih =>
    intro cur before w after hcur hfa hg
    by_cases hc : c = '\n'
    · subst hc
      have hfe : fenceToEnd cur = false := fenceToEnd_false_of_fenceAt_none hfa
      simp only [dropFencesFrom]
      rw [if_pos (by trivial), if_neg (by decide : ¬ (false = true)), hfe,
        if_neg (by decide : ¬ (false = true))]
      have hg' := hg
      simp only [goFence] at hg'
      rw [if_pos (by trivial)] at hg'
      cases hf : fenceAt rest with
      | some wr =>
        obtain ⟨w', r'⟩ := wr
        rw [hf] at hg'
        simp only [Option.some_inj, Prod.mk.injEq] at hg'
        obtain ⟨hb, hw, ha⟩ := hg'
        subst hb; subst hw; subst ha
        have hch := fenceAt_eq_some hf
        have e0 : rest = ('`' :: '`' :: '`' :: w' : Str) ++ '\n' :: r' := by
          rw [hch.1]; simp
        rw [e0, dropFencesFrom_line_false _ (no_nl_of_fence hch.2) [] r']
        have hfeT : fenceToEnd (([] : Str) ++ ('`' :: '`' :: '`' :: w' : Str)) = true := by
          rw [List.nil_append]
          exact fenceToEnd_intro hch.2
        rw [hfeT, if_pos rfl]
        simp
      | none =>
        rw [hf] at hg'
        cases hgr : goFence rest with
        | none => rw [hgr] at hg'; simp at hg'
        | some bwr =>
          obtain ⟨b', w', r'⟩ := bwr
          rw [hgr] at hg'
          simp only [Option.some_inj, Prod.mk.injEq] at hg'
          obtain ⟨hb, hw, ha⟩ := hg'
          subst hb; subst hw; subst ha
          have ihh := ih [] b' w' r' (by simp) (by simpa using hf) hgr
          rw [ihh]
          simp
    · simp only [dropFencesFrom]
      rw [if_neg hc]
      have hg' := hg
      simp only [goFence] at hg'
      rw [if_neg hc] at hg'
      cases hgr : goFence rest with
      | none => rw [hgr] at hg'; simp at hg'
      | some bwr =>
        obtain ⟨b', w', r'⟩ := bwr
        rw [hgr] at hg'
        simp only [Option.some_inj, Prod.mk.injEq] at hg'
        obtain ⟨hb, hw, ha⟩ := hg'
        subst hb; subst hw; subst ha
        have hcur' : '\n' ∉ cur ++ [c] := by
          intro hm
          rcases List.mem_append.mp hm with h | h
          · exact hcur h
          · simp at h
            exact hc h.symm
        have hfa' : fenceAt ((cur ++ [c]) ++ rest) = none := by
          rw [List.append_assoc]
          simpa using hfa
        have ihh := ih (cur ++ [c]) b' w' r' hcur' hfa' hgr
        rw [ihh]
        simp

theorem dropFencesFrom_noFence :
    ∀ (p cur : Str), '\n' ∉ cur → fenceAt (cur ++ p) = none → goFence p = none →
      dropFencesFrom false cur p = (cur ++ p, false) := by
  intro p
  induction p with
  | nil => intro cur _ _ _; simp [dropFencesFrom]
  | cons c rest ih =>
    intro cur hcur hfa hg
    by_cases hc : c = '\n'
    · subst hc
      have hfe : fenceToEnd cur = false := fenceToEnd_false_of_fenceAt_none hfa
      simp only [dropFencesFrom]
      rw [if_pos (by trivial), if_neg (by decide : ¬ (false = true)), hfe,
        if_neg (by decide : ¬ (false = true))]
      have hg' := hg
      simp only [goFence] at hg'
      rw [if_pos (by trivial)] at hg'
      cases hf : fenceAt rest with
      | some wr =>
        obtain ⟨w', r'⟩ := wr
        rw [hf] at hg'
        simp at hg'
      | none =>
        rw [hf] at hg'
        cases hg2 : goFence rest with
        | some bwr =>
          obtain ⟨b', w', r'⟩ := bwr
          rw [hg2] at hg'
          simp at hg'
        | none =>
          rw [ih [] (by simp) (by simpa using hf) hg2]
          simp
    · simp only [dropFencesFrom]
      rw [if_neg hc]
      have hg' := hg
      simp only [goFence] at hg'
      rw [if_neg hc] at hg'
      cases hg2 : goFence rest with
      | some bwr =>
        obtain ⟨b', w', r'⟩ := bwr
        rw [hg2] at hg'
        simp at hg'
      | none =>
        have hcur' : '\n' ∉ cur ++ [c] := by
          intro hm
          rcases List.mem_append.mp hm with h | h
          · exact hcur h
          · simp at h
            exact hc h.symm
        have hfa' : fenceAt ((cur ++ [c]) ++ rest) = none := by
          rw [List.append_assoc]
          simpa using hfa
        rw [ih (cur ++ [c]) hcur' hfa' hg2]
        simp

theorem dropFencesFrom_findFence {p before w after : Str}
    (h : findFence p = some (before, w, after)) :
    dropFencesFrom false [] p =
      (before ++ (dropFencesFrom true [] after).1,
        (dropFencesFrom true [] after).2) := by
  unfold findFence at h
  cases hf : fenceAt p with
  | some wr =>
    obtain ⟨w', r'⟩ := wr
    rw [hf] at h
    simp only [Option.some_inj, Prod.mk.injEq] at h
    obtain ⟨hb, hw, ha⟩ := h
    subst hb; subst hw; subst ha
    have hch := fenceAt_eq_some hf
    have e0 : p = ('`' :: '`' :: '`' :: w' : Str) ++ '\n' :: r' := by
      rw [hch.1]; simp
    rw [e0, dropFencesFrom_line_false _ (no_nl_of_fence hch.2) [] r']
    have hfeT : fenceToEnd (([] : Str) ++ ('`' :: '`' :: '`' :: w' : Str)) = true := by
      rw [List.nil_append]
      exact fenceToEnd_intro hch.2
    rw [hfeT, if_pos rfl]
    simp
  | none =>
    rw [hf] at h
    have := dropFencesFrom_goFence p [] before w after (by simp) (by simpa using hf) h
    simpa using this

theorem dropFencesFrom_findFence_none {p : Str} (h : findFence p = none) :
    dropFencesFrom false [] p = (p, false) := by
  unfold findFence at h
  cases hf : fenceAt p with
  | some wr =>
    obtain ⟨w', r'⟩ := wr
    rw [hf] at h
    simp at h
  | none =>
    rw [hf] at h
    have := dropFencesFrom_noFence p [] (by simp) (by simpa using hf) h
    simpa using this

theorem splitAtNl_eq_none (p : Str) : splitAtNl p = none → '\n' ∉ p := by
  induction p with
  | nil => intro _; simp
  | cons c rest ih =>
    intro h
    simp only [splitAtNl] at h
    by_cases hc : c = '\n'
    · rw [if_pos hc] at h
      simp at h
    · rw [if_neg hc] at h
      cases hs : splitAtNl rest with
      | some lr =>
        obtain ⟨l, r⟩ := lr
        rw [hs] at h
        simp at h
      | none =>
        intro hm
        rcases List.mem_cons.mp hm with h1 | h2
        · exact hc h1.symm
        · exact ih hs h2

theorem getLast?_suffix {x y : Str} {a : Char}
    (h : (x ++ y).getLast? = some a) (hy : y ≠ []) : y.getLast? = some a := by
  rw [List.getLast?_append] at h
  cases he : y.getLast? with
  | none =>
    have hs := (List.getLast?_isSome (l := y)).mpr hy
    rw [he] at hs
    simp at hs
  | some b =>
    rw [he] at h
    have : b = a := by simpa [Option.or] using h
    rw [this]

theorem findHeldFence_none_of_ends_nl {p : Str} (h : p.getLast? = some '\n') :
    findHeldFence p = none := by
  cases hf : findHeldFence p with
  | none => rfl
  | some bh =>
    obtain ⟨b, hd⟩ := bh
    obtain ⟨hpe, hfe⟩ := findHeldFence_eq_some hf
    obtain ⟨w, hw, hall⟩ := fenceToEnd_eq_true hfe
    have hdne : hd ≠ [] := by rw [hw]; simp
    have hlast : hd.getLast? = some '\n' := by
      refine getLast?_suffix (x := b) ?_ hdne
      rw [← hpe]
      exact h
    have hmem : '\n' ∈ hd := List.mem_of_getLast?_eq_some hlast
    rw [hw] at hmem
    exact absurd hmem (no_nl_of_fence hall)

theorem trailingHold_none_of_ends_nl {p : Str} (h : p.getLast? = some '\n') :
    trailingHold p = none := by
  obtain ⟨a, ha⟩ := List.getLast?_eq_some_iff.mp h
  subst ha
  have hrev : (a ++ ['\n']).reverse = '\n' :: a.reverse := by simp
  have hc1 : ¬ ((a ++ ['\n'] : Str) = ['`'] ∨ (a ++ ['\n'] : Str) = ['`', '`']) := by
    rintro (e | e)
    · have := congrArg List.getLast? e
      rw [List.getLast?_concat] at this
      simp at this
    · have := congrArg List.getLast? e
      rw [List.getLast?_concat] at this
      simp at this
  have hc2 : ¬ (startsWith ['`', '\n'] (a ++ ['\n'] : Str).reverse = true) := by
    rw [hrev]
    simp [startsWith]
  have hc3 : ¬ (startsWith ['`', '`', '\n'] (a ++ ['\n'] : Str).reverse = true) := by
    rw [hrev]
    simp [startsWith]
  unfold trailingHold
  rw [if_neg hc1, if_neg hc2, if_neg hc3]

theorem dropFencesFrom_append :
    ∀ (n : Nat) (p : Str), p.length < n → (p = [] ∨ p.getLast? = some '\n') →
      ∀ (q : Str) (b : Bool),
        dropFencesFrom b [] (p ++ q) =
          ((dropFencesFrom b [] p).1 ++
              (dropFencesFrom (dropFencesFrom b [] p).2 [] q).1,
            (dropFencesFrom (dropFencesFrom b [] p).2 [] q).2) := by
  intro n
  induction n using Nat.strong_induction_on with
  | _ n ih =>
    intro p hlen hal q b
    rcases hal with hnil | hnl
    · subst hnil
      simp [dropFencesFrom]
    · have hmem : '\n' ∈ p := List.mem_of_getLast?_eq_some hnl
      cases hsp : splitAtNl p with
      | none => exact absurd hmem (splitAtNl_eq_none p hsp)
      | some lr =>
        obtain ⟨l, p'⟩ := lr
        obtain ⟨hpe, hlnl⟩ := splitAtNl_eq_some hsp
        have hal' : p' = [] ∨ p'.getLast? = some '\n' := by
          by_cases hp' : p' = []
          · exact Or.inl hp'
          · refine Or.inr (getLast?_suffix (x := l ++ ['\n']) ?_ hp')
            rw [show (l ++ ['\n'] : Str) ++ p' = p by rw [hpe]; simp]
            exact hnl
        have hlen' : p'.length < n := by
          have e := congrArg List.length hpe
          simp only [List.length_append, List.length_cons] at e
          omega
        have hll : p'.length + 1 ≤ p.length := by
          have e := congrArg List.length hpe
          simp only [List.length_append, List.length_cons] at e
          omega
        subst hpe
        have hassoc : ((l ++ '\n' :: p') ++ q : Str) = l ++ '\n' :: (p' ++ q) := by
          simp
        rw [hassoc]
        cases b
        · rw [dropFencesFrom_line_false l hlnl [] (p' ++ q),
            dropFencesFrom_line_false l hlnl [] p']
          by_cases hfe : fenceToEnd (([] : Str) ++ l) = true
          · rw [if_pos hfe, if_pos hfe]
            exact ih (p'.length + 1) (by omega) p' (by omega) hal' q true
          · rw [if_neg hfe, if_neg hfe]
            have ihh := ih (p'.length + 1) (by omega) p' (by omega) hal' q false
            rw [ihh]
            simp
        · rw [dropFencesFrom_line_true l hlnl [] (p' ++ q),
            dropFencesFrom_line_true l hlnl [] p']
          by_cases hfe : isCloseFence (([] : Str) ++ l) = true
          · rw [if_pos hfe, if_pos hfe]
            exact ih (p'.length + 1) (by omega) p' (by omega) hal' q false
          · rw [if_neg hfe, if_neg hfe]
            have ihh := ih (p'.length + 1) (by omega) p' (by omega) hal' q true
            rw [ihh]
            simp

theorem concatStr_emit (s : Str) (r : List Str) :
    concatStr (emitIfNonempty s ++ r) = s ++ concatStr r := by
  by_cases h : s = []
  · subst h
    simp [emitIfNonempty]
  · rw [emitIfNonempty, if_neg h]
    simp [concatStr_cons]

/-- The two clean machine states reachable on line-aligned input. -/
def mState (b : Bool) : BState :=
  if b then BState.CODE_BLOCK else BState.NORMAL

/-- On line-aligned (newline-terminated), escape-free pending text, the write
loop started in a clean state (`NORMAL` or `CODE_BLOCK`, empty `lineBuffer`,
empty residue) lands back in a clean state and — after stripping the ANSI
escapes introduced by the highlighter — emits exactly the input with the
recognized fence-marker lines removed, per the two-state filter. -/
theorem loop_aligned (hl : Str → Str → Str)
    (Hc : ∀ c l, escEnd false (hl c l) = false)
    (Hs : ∀ c l, stripAnsi (hl c l) = stripAnsi c) :
    ∀ (n : Nat) (p : Str) (b : Bool) (L : Option Str),
      p.length < n → (p = [] ∨ p.getLast? = some '\n') → '\x1b' ∉ p →
      ∃ out L',
        writeLoop hl n ⟨mState b, [], L, p⟩ =
          (out, ⟨mState (dropFencesFrom b [] p).2, [], L', []⟩) ∧
        stripAnsi (concatStr out) = (dropFencesFrom b [] p).1 ∧
        escEnd false (concatStr out) = false := by
  intro n
  induction n using Nat.strong_induction_on with
  | _ n ih =>
    intro p b L hlen hal hesc
    rcases hal with hnil | hnl
    · subst hnil
      refine ⟨[], L, ?_, rfl, rfl⟩
      rw [writeLoop_empty hl n _ rfl]
      cases b <;> rfl
    · have hpne : p ≠ [] := by
        intro e
        rw [e] at hnl
        simp at hnl
      cases n with
      | zero => omega
      | succ k =>
        cases b
        · -- NORMAL state
          have hpc : processChunk hl ⟨mState false, [], L, p⟩ =
              processNormalState ⟨mState false, [], L, p⟩ := rfl
          cases hff : findFence p with
          | some bwr =>
            obtain ⟨before, w, after⟩ := bwr
            have hstep : processChunk hl ⟨mState false, [], L, p⟩ =
                (emitIfNonempty before,
                  ⟨BState.CODE_BLOCK, [], langOpt w, after⟩, true) := by
              rw [hpc]
              simp only [processNormalState, hff]
            have hr : (processChunk hl ⟨mState false, [], L, p⟩).2.2 = true := by
              rw [hstep]
            have hchar := findFence_eq_some hff
            have hsplit : p = (before ++ '`' :: '`' :: '`' :: w ++ ['\n']) ++ after := by
              rw [hchar]
              simp
            have hal' : after = [] ∨ after.getLast? = some '\n' := by
              by_cases he : after = []
              · exact Or.inl he
              · refine Or.inr (getLast?_suffix
                  (x := before ++ '`' :: '`' :: '`' :: w ++ ['\n']) ?_ he)
                rw [← hsplit]
                exact hnl
            have hesc' : '\x1b' ∉ after := by
              intro m
              exact hesc (by rw [hsplit]; exact List.mem_append_right _ m)
            have hescB : '\x1b' ∉ before := by
              intro m
              exact hesc (by rw [hchar]; exact List.mem_append_left _ m)
            have hlen' : after.length < k := by
              have e := congrArg List.length hsplit
              simp only [List.length_append, List.length_cons, List.length_nil] at e
              omega
            obtain ⟨out₂, L₂, hloop₂, hstrip₂, hesc₂⟩ :=
              ih k (by omega) after true (langOpt w) hlen' hal' hesc'
            have hms : (⟨mState true, [], langOpt w, after⟩ : BufferState) =
                ⟨BState.CODE_BLOCK, [], langOpt w, after⟩ := rfl
            rw [hms] at hloop₂
            have hwl : writeLoop hl (k + 1) ⟨mState false, [], L, p⟩ =
                (emitIfNonempty before ++ out₂,
                  ⟨mState (dropFencesFrom true [] after).2, [], L₂, []⟩) := by
              rw [writeLoop_succ, if_neg hpne, if_pos hr]
              simp only [hstep, hloop₂]
            refine ⟨emitIfNonempty before ++ out₂, L₂, ?_, ?_, ?_⟩
            · rw [hwl]
              rw [dropFencesFrom_findFence hff]
            · rw [dropFencesFrom_findFence hff, concatStr_emit, stripAnsi_eq,
                stripAnsiAux_append, escEnd_false_of_not_mem hescB, ← stripAnsi_eq,
                ← stripAnsi_eq, stripAnsi_of_not_mem hescB, hstrip₂]
            · rw [concatStr_emit, escEnd_append, escEnd_false_of_not_mem hescB,
                hesc₂]
          | none =>
            have hheld : findHeldFence p = none := findHeldFence_none_of_ends_nl hnl
            have htr : trailingHold p = none := trailingHold_none_of_ends_nl hnl
            have hstep : processChunk hl ⟨mState false, [], L, p⟩ =
                ([p], ⟨BState.NORMAL, [], L, []⟩, false) := by
              rw [hpc]
              simp only [processNormalState, hff, hheld, htr]
            have hnr : ¬ ((processChunk hl ⟨mState false, [], L, p⟩).2.2 = true) := by
              rw [hstep]
              simp
            have hone : concatStr [p] = p := by simp [concatStr]
            have hwl : writeLoop hl (k + 1) ⟨mState false, [], L, p⟩ =
                ([p], ⟨BState.NORMAL, [], L, []⟩) := by
              rw [writeLoop_succ, if_neg hpne, if_neg hnr]
              simp only [hstep]
            refine ⟨[p], L, ?_, ?_, ?_⟩
            · rw [hwl, dropFencesFrom_findFence_none hff]
              rfl
            · rw [dropFencesFrom_findFence_none hff, hone,
                stripAnsi_of_not_mem hesc]
            · rw [hone]
              exact escEnd_false_of_not_mem hesc
        · -- CODE_BLOCK state
          have hmem : '\n' ∈ p := List.mem_of_getLast?_eq_some hnl
          cases hsp : splitAtNl p with
          | none => exact absurd hmem (splitAtNl_eq_none p hsp)
          | some lr =>
            obtain ⟨l, rest⟩ := lr
            obtain ⟨hpe, hlnl⟩ := splitAtNl_eq_some hsp
            have hal' : rest = [] ∨ rest.getLast? = some '\n' := by
              by_cases he : rest = []
              · exact Or.inl he
              · refine Or.inr (getLast?_suffix (x := l ++ ['\n']) ?_ he)
                rw [show (l ++ ['\n'] : Str) ++ rest = p by rw [hpe]; simp]
                exact hnl
            have hescl : '\x1b' ∉ l := by
              intro m
              exact hesc (by rw [hpe]; exact List.mem_append_left _ m)
            have hescr : '\x1b' ∉ rest := by
              intro m
              exact hesc
                (by rw [hpe]; exact List.mem_append_right _ (List.mem_cons_of_mem _ m))
            have hlenr : rest.length < k := by
              have e := congrArg List.length hpe
              simp only [List.length_append, List.length_cons] at e
              omega
            by_cases hcf : isCloseFence l = true
            · have hstep : processChunk hl ⟨mState true, [], L, p⟩ =
                  ([], ⟨BState.NORMAL, [], none, rest⟩, true) := by
                show processCodeBlockState hl ⟨mState true, [], L, p⟩ = _
                simp only [processCodeBlockState, hsp, List.nil_append]
                rw [if_pos hcf]
              have hr : (processChunk hl ⟨mState true, [], L, p⟩).2.2 = true := by
                rw [hstep]
              have hdf : dropFencesFrom true [] p = dropFencesFrom false [] rest := by
                rw [hpe, dropFencesFrom_line_true l hlnl [] rest, List.nil_append,
                  if_pos hcf]
              obtain ⟨out₂, L₂, hloop₂, hstrip₂, hesc₂⟩ :=
                ih k (by omega) rest false none hlenr hal' hescr
              have hms : (⟨mState false, [], none, rest⟩ : BufferState) =
                  ⟨BState.NORMAL, [], none, rest⟩ := rfl
              rw [hms] at hloop₂
              have hwl : writeLoop hl (k + 1) ⟨mState true, [], L, p⟩ =
                  (out₂, ⟨mState (dropFencesFrom false [] rest).2, [], L₂, []⟩) := by
                rw [writeLoop_succ, if_neg hpne, if_pos hr]
                simp only [hstep, hloop₂, List.nil_append]
              refine ⟨out₂, L₂, ?_, ?_, ?_⟩
              · rw [hwl, hdf]
              · rw [hdf]
                exact hstrip₂
              · exact hesc₂
            · have hstep : processChunk hl ⟨mState true, [], L, p⟩ =
                  ([hl l (L.getD "plaintext".data) ++ ['\n']],
                    ⟨BState.CODE_BLOCK, [], L, rest⟩, true) := by
                show processCodeBlockState hl ⟨mState true, [], L, p⟩ = _
                simp only [processCodeBlockState, hsp, List.nil_append]
                rw [if_neg hcf]
              have hr : (processChunk hl ⟨mState true, [], L, p⟩).2.2 = true := by
                rw [hstep]
              have hcfF : isCloseFence l = false := by
                revert hcf
                cases isCloseFence l <;> simp
              have hdf : dropFencesFrom true [] p =
                  (l ++ '\n' :: (dropFencesFrom true [] rest).1,
                    (dropFencesFrom true [] rest).2) := by
                rw [hpe, dropFencesFrom_line_true l hlnl [] rest, List.nil_append,
                  hcfF, if_neg (by decide : ¬ (false = true))]
              obtain ⟨out₂, L₂, hloop₂, hstrip₂, hesc₂⟩ :=
                ih k (by omega) rest true L hlenr hal' hescr
              have hms : (⟨mState true, [], L, rest⟩ : BufferState) =
                  ⟨BState.CODE_BLOCK, [], L, rest⟩ := rfl
              rw [hms] at hloop₂
              have hpieceE : escEnd false (hl l (L.getD "plaintext".data) ++ ['\n']) =
                  false := by
                rw [escEnd_append, Hc]
                decide
              have hpieceS : stripAnsi (hl l (L.getD "plaintext".data) ++ ['\n']) =
                  l ++ ['\n'] := by
                rw [stripAnsi_eq, stripAnsiAux_append, Hc, ← stripAnsi_eq, Hs,
                  stripAnsi_of_not_mem hescl]
                rw [show stripAnsiAux false ['\n'] = ['\n'] by decide]
              have hwl : writeLoop hl (k + 1) ⟨mState true, [], L, p⟩ =
                  ((hl l (L.getD "plaintext".data) ++ ['\n']) :: out₂,
                    ⟨mState (dropFencesFrom true [] rest).2, [], L₂, []⟩) := by
                rw [writeLoop_succ, if_neg hpne, if_pos hr]
                simp only [hstep, hloop₂, List.singleton_append]
              refine ⟨(hl l (L.getD "plaintext".data) ++ ['\n']) :: out₂, L₂,
                ?_, ?_, ?_⟩
              · rw [hwl, hdf]
              · rw [hdf, concatStr_cons, stripAnsi_eq, stripAnsiAux_append,
                  hpieceE, ← stripAnsi_eq, ← stripAnsi_eq, hpieceS, hstrip₂]
                simp
              · rw [concatStr_cons, escEnd_append, hpieceE, hesc₂]

theorem runWrites_aligned (hl : Str → Str → Str)
    (Hc : ∀ c l, escEnd false (hl c l) = false)
    (Hs : ∀ c l, stripAnsi (hl c l) = stripAnsi c) :
    ∀ (cs : List Str) (b : Bool) (L : Option Str),
      (∀ c ∈ cs, c = [] ∨ c.getLast? = some '\n') →
      '\x1b' ∉ concatStr cs →
      ∃ out L',
        runWrites hl ⟨mState b, [], L, []⟩ cs =
          (out, ⟨mState (dropFencesFrom b [] (concatStr cs)).2, [], L', []⟩) ∧
        stripAnsi (concatStr out) = (dropFencesFrom b [] (concatStr cs)).1 ∧
        escEnd false (concatStr out) = false := by
  intro cs
  induction cs with
  | nil =>
    intro b L _ _
    refine ⟨[], L, ?_, rfl, rfl⟩
    cases b <;> rfl
  | cons c cs' ih =>
    intro b L hal hesc
    have halc : c = [] ∨ c.getLast? = some '\n' := hal c (List.mem_cons_self c cs')
    have halcs : ∀ x ∈ cs', x = [] ∨ x.getLast? = some '\n' :=
      fun x hx => hal x (List.mem_cons_of_mem c hx)
    have hcc : concatStr (c :: cs') = c ++ concatStr cs' := concatStr_cons c cs'
    have hescc : '\x1b' ∉ c := by
      intro m
      exact hesc (by rw [hcc]; exact List.mem_append_left _ m)
    have hesccs : '\x1b' ∉ concatStr cs' := by
      intro m
      exact hesc (by rw [hcc]; exact List.mem_append_right _ m)
    obtain ⟨out₁, L₁, hloop₁, hstrip₁, hesc₁⟩ :=
      loop_aligned hl Hc Hs (c.length + 1) c b L (by omega) halc hescc
    have hw : write hl ⟨mState b, [], L, []⟩ c =
        (out₁, ⟨mState (dropFencesFrom b [] c).2, [], L₁, []⟩) := by
      unfold write
      simp only [List.nil_append, List.length_nil, Nat.zero_add]
      exact hloop₁
    obtain ⟨out₂, L₂, hrun₂, hstrip₂, hesc₂⟩ :=
      ih (dropFencesFrom b [] c).2 L₁ halcs hesccs
    have hcomp := dropFencesFrom_append (c.length + 1) c (by omega) halc
      (concatStr cs') b
    refine ⟨out₁ ++ out₂, L₂, ?_, ?_, ?_⟩
    · rw [runWrites_cons]
      simp only [hw, hrun₂]
      rw [hcc, hcomp]
    · rw [concatStr_append, stripAnsi_eq, stripAnsiAux_append, hesc₁,
        ← stripAnsi_eq, ← stripAnsi_eq, hstrip₁, hstrip₂, hcc, hcomp]
    · rw [concatStr_append, escEnd_append, hesc₁, hesc₂]

/-- Helper for C1: stripping the escapes from everything the buffer emits
(writes plus final flush) over line-aligned, escape-free chunks yields the
input text with the recognized fence-marker lines removed. -/
theorem totalOut_aligned (hl : Str → Str → Str)
    (Hc : ∀ c l, escEnd false (hl c l) = false)
    (Hs : ∀ c l, stripAnsi (hl c l) = stripAnsi c)
    (cs : List Str)
    (hal : ∀ c ∈ cs, c = [] ∨ c.getLast? = some '\n')
    (hesc : '\x1b' ∉ concatStr cs) :
    stripAnsi (totalOut hl cs) = dropFences (concatStr cs) := by
  obtain ⟨out, L', hrun, hstrip, _⟩ :=
    runWrites_aligned hl Hc Hs cs false none hal hesc
  have hinit : initialState = ⟨mState false, [], none, []⟩ := rfl
  have e : totalOut hl cs = concatStr (totalPieces hl cs) := rfl
  rw [e]
  unfold totalPieces
  rw [hinit]
  simp only [hrun]
  have hfl : flushOut hl
      ⟨mState (dropFencesFrom false [] (concatStr cs)).2, [], L', []⟩ = [] := by
    unfold flushOut
    simp
  rw [hfl, List.append_nil, hstrip]
  rfl

/-- **C1** (amended): for every highlighter whose per-line output has
balanced ANSI escapes and strips back to the stripped input line, and every
*line-aligned* chunking (each chunk a concatenation of complete
newline-terminated lines) of escape-free text, concatenating everything the
buffer passes to the output sink, removing the code-fence marker lines the
machine recognizes (opening markers in normal mode, closing markers inside a
block), and stripping all embedded ANSI escapes reproduces the input text
with those same marker lines removed — and the result is identical for every
line-aligned chunking of the same text.  (Unrestricted chunkings genuinely
differ: see the counterexample.) -/
theorem round_trip_line_aligned (hl : Str → Str → Str)
    (Hc : ∀ c l, escEnd false (hl c l) = false)
    (Hs : ∀ c l, stripAnsi (hl c l) = stripAnsi c)
    (cs : List Str)
    (hal : ∀ c ∈ cs, c = [] ∨ c.getLast? = some '\n')
    (hesc : '\x1b' ∉ concatStr cs) :
    stripAnsi (totalOut hl cs) = dropFences (concatStr cs) ∧
    ∀ cs' : List Str, (∀ c ∈ cs', c = [] ∨ c.getLast? = some '\n') →
      concatStr cs' = concatStr cs →
      stripAnsi (totalOut hl cs') = stripAnsi (totalOut hl cs) := by
  refine ⟨totalOut_aligned hl Hc Hs cs hal hesc, ?_⟩
  intro cs' hal' heq
  rw [totalOut_aligned hl Hc Hs cs' hal' (by rw [heq]; exact hesc),
    totalOut_aligned hl Hc Hs cs hal hesc, heq]

/-- A concrete highlighter obeying the C1 contract: it wraps the stripped
line in a minimal escape sequence. -/
def hlW : Str → Str → Str := fun c _ => '\x1b' :: 'm' :: stripAnsi c

theorem hlW_escEnd (c l : Str) : escEnd false (hlW c l) = false := by
  have e1 : escEnd false ('\x1b' :: 'm' :: stripAnsi c) =
      escEnd false (stripAnsi c) := by
    simp [escEnd]
  show escEnd false ('\x1b' :: 'm' :: stripAnsi c) = false
  rw [e1]
  exact escEnd_false_of_not_mem (not_esc_mem_stripAnsiAux c false)

theorem hlW_strip (c l : Str) : stripAnsi (hlW c l) = stripAnsi c := by
  have e1 : stripAnsi ('\x1b' :: 'm' :: stripAnsi c) =
      stripAnsiAux false (stripAnsi c) := by
    simp [stripAnsi, stripAnsiAux]
  show stripAnsi ('\x1b' :: 'm' :: stripAnsi c) = stripAnsi c
  rw [e1, ← stripAnsi_eq]
  exact stripAnsi_of_not_mem (not_esc_mem_stripAnsiAux c false)

/-- Witness for C1 (amended): a concrete line-aligned five-chunk stream with
one fenced python block, under the concrete contract-obeying highlighter
`hlW`. -/
theorem round_trip_line_aligned_witness :
    stripAnsi (totalOut hlW
        ["hello\n".data, "```py\n".data, "x = 1\n".data, "```\n".data,
          "bye\n".data]) =
      dropFences (concatStr
        ["hello\n".data, "```py\n".data, "x = 1\n".data, "```\n".data,
          "bye\n".data]) :=
  (round_trip_line_aligned hlW hlW_escEnd hlW_strip
    ["hello\n".data, "```py\n".data, "x = 1\n".data, "```\n".data,
      "bye\n".data] (by decide) (by decide)).1

end Copilot